import Mathlib

set_option maxRecDepth 8192

/-!
Verification development for the AlephBot repository (Hebrew linguistic
chat bot).  The definitions below are a shallow embedding of the
response-normalization and retry layer of the bot:

* `src/utils/nakdan_api.py`   — input validation, payload construction,
  retry wrapper, vowelization / analysis / lemmatization pipelines;
* `src/utils/nlp.py`          — word-part and BGU-field processing;
* `src/utils/models.py`       — `NakdanResponse` and its length validator;
* `src/utils/hebrew.py`       — Unicode normalization of Hebrew text;
* `src/utils/dicta_api.py`    — WebSocket translation client;
* `src/utils/hebrew_constants.py` — limits and error messages.

A Python `str` is modelled as `List Char` (a sequence of Unicode code
points, which is exactly Python's string model).  Machine-level details
(actual sockets, JSON wire format) are abstracted: a network call is a
function from the attempt number to the outcome of that attempt, and a
parsed JSON response is a list of already-shape-checked items, mirroring
the structural validation performed in `_call_nakdan_api`.
-/

namespace AlephBot

/-- A Python string: a finite sequence of Unicode code points. -/
abbrev PyStr := List Char

/-- The set of code points for which Python's `str.isspace` holds and on
which `str.split()` (no argument) splits.  Mirrors CPython's Unicode
whitespace table. -/
def spaceCodes : List Nat :=
  [0x09, 0x0A, 0x0B, 0x0C, 0x0D, 0x1C, 0x1D, 0x1E, 0x1F, 0x20,
   0x85, 0xA0, 0x1680,
   0x2000, 0x2001, 0x2002, 0x2003, 0x2004, 0x2005, 0x2006, 0x2007,
   0x2008, 0x2009, 0x200A, 0x2028, 0x2029, 0x202F, 0x205F, 0x3000]

/-- Python whitespace test (`str.isspace` on a single code point). -/
def isPySpace (c : Char) : Bool := spaceCodes.contains c.toNat

/-- Every code point of the string is whitespace. -/
def allSpace (s : PyStr) : Prop := ∀ c ∈ s, isPySpace c = true

/-- No code point of the string is whitespace. -/
def noSpace (s : PyStr) : Prop := ∀ c ∈ s, isPySpace c = false

instance (s : PyStr) : Decidable (allSpace s) := by
  unfold allSpace; infer_instance

instance (s : PyStr) : Decidable (noSpace s) := by
  unfold noSpace; infer_instance

/-- Unicode canonical combining class as a function of the code point,
transcribed from `UnicodeData.txt` for the Hebrew block (accents
U+0591–U+05AF, points U+05B0–U+05C7).  All other characters relevant to
this program (Hebrew letters, ASCII, whitespace) are starters with
class 0. -/
def cccN (n : Nat) : Nat :=
  match n with
  | 0x0591 => 220 | 0x0592 => 230 | 0x0593 => 230 | 0x0594 => 230
  | 0x0595 => 230 | 0x0596 => 220 | 0x0597 => 230 | 0x0598 => 230
  | 0x0599 => 230 | 0x059A => 222 | 0x059B => 220 | 0x059C => 230
  | 0x059D => 230 | 0x059E => 230 | 0x059F => 230 | 0x05A0 => 230
  | 0x05A1 => 230 | 0x05A2 => 220 | 0x05A3 => 220 | 0x05A4 => 220
  | 0x05A5 => 220 | 0x05A6 => 220 | 0x05A7 => 220 | 0x05A8 => 230
  | 0x05A9 => 230 | 0x05AA => 220 | 0x05AB => 230 | 0x05AC => 230
  | 0x05AD => 222 | 0x05AE => 228 | 0x05AF => 230
  | 0x05B0 => 10 | 0x05B1 => 11 | 0x05B2 => 12 | 0x05B3 => 13
  | 0x05B4 => 14 | 0x05B5 => 15 | 0x05B6 => 16 | 0x05B7 => 17
  | 0x05B8 => 18 | 0x05B9 => 19 | 0x05BA => 19 | 0x05BB => 20
  | 0x05BC => 21 | 0x05BD => 22 | 0x05BF => 23
  | 0x05C1 => 24 | 0x05C2 => 25 | 0x05C4 => 230 | 0x05C5 => 220
  | 0x05C7 => 18
  | _ => 0

/-- Unicode canonical combining class of a character. -/
def ccc (c : Char) : Nat := cccN c.toNat

/-- A non-starter (combining mark): a character with nonzero combining
class. -/
def isMark (c : Char) : Bool := ccc c != 0

/-- Ordering of characters by combining class, used by the canonical
ordering algorithm. -/
def cccLE (a b : Char) : Prop := ccc a ≤ ccc b

instance : DecidableRel cccLE := fun a b => inferInstanceAs (Decidable (ccc a ≤ ccc b))

instance : IsTotal Char cccLE := ⟨fun a b => Nat.le_total (ccc a) (ccc b)⟩

instance : IsTrans Char cccLE := ⟨fun _ _ _ => Nat.le_trans⟩

/-- Stable sort of a run of combining marks by combining class: the
Unicode Canonical Ordering step. -/
def sortCCC (run : PyStr) : PyStr := run.insertionSort cccLE

lemma length_dropWhile_le (p : Char → Bool) (l : PyStr) :
    (l.dropWhile p).length ≤ l.length := by
  induction l with
  | nil => simp
  | cons a l ih =>
    by_cases h : p a
    · rw [List.dropWhile_cons_of_pos h]; exact Nat.le_succ_of_le ih
    · rw [List.dropWhile_cons_of_neg h]

lemma length_dropWhile_mark_cons (c : Char) (rest : PyStr) (h : ccc c ≠ 0) :
    ((c :: rest).dropWhile isMark).length < (c :: rest).length := by
  have hc : isMark c = true := by simp [isMark]; omega
  rw [List.dropWhile_cons_of_pos hc]
  exact Nat.lt_succ_of_le (length_dropWhile_le isMark rest)

/-- Fuel-indexed canonical ordering; the fuel only makes the recursion
structural and is irrelevant once it reaches the string's length
(`nfcOrderF_fuel`). -/
def nfcOrderF : Nat → PyStr → PyStr
  | 0, _ => []
  | _ + 1, [] => []
  | n + 1, c :: rest =>
    if ccc c = 0 then c :: nfcOrderF n rest
    else sortCCC ((c :: rest).takeWhile isMark) ++ nfcOrderF n ((c :: rest).dropWhile isMark)

/-- Model of `unicodedata.normalize('NFC', text)` (used by
`normalize_hebrew` in `src/utils/hebrew.py`) and of the `hebrew`
package's `Hebrew(...).normalize()`, restricted to the character
repertoire this program handles.  Hebrew has no composed letter+mark
forms in NFC (the precomposed presentation forms are composition
exclusions), so on this repertoire NFC is exactly the Canonical
Ordering Algorithm: every maximal run of non-starters is stably sorted
by canonical combining class; starters are untouched. -/
def nfcOrder (s : PyStr) : PyStr := nfcOrderF s.length s

lemma isPySpace_ccc {c : Char} (h : isPySpace c = true) : ccc c = 0 := by
  have hm : c.toNat ∈ spaceCodes := by
    simpa [isPySpace] using h
  have hall : ∀ n ∈ spaceCodes, cccN n = 0 := by decide
  exact hall c.toNat hm

lemma isPySpace_not_mark {c : Char} (h : isPySpace c = true) : isMark c = false := by
  simp [isMark, isPySpace_ccc h]

lemma nfcOrderF_fuel : ∀ n m : Nat, ∀ s : PyStr, s.length ≤ n → s.length ≤ m →
    nfcOrderF n s = nfcOrderF m s := by
  intro n
  induction n with
  | zero =>
    intro m s hn _
    have hs : s = [] := List.length_eq_zero.mp (Nat.le_zero.mp hn)
    subst hs
    cases m <;> rfl
  | succ n ih =>
    intro m s hn hm
    match s with
    | [] => cases m <;> rfl
    | c :: rest =>
      match m with
      | 0 => simp at hm
      | m + 1 =>
        simp only [nfcOrderF]
        by_cases h : ccc c = 0
        · rw [if_pos h, if_pos h]
          simp only [List.length_cons] at hn hm
          rw [ih m rest (by omega) (by omega)]
        · rw [if_neg h, if_neg h]
          have hlt := length_dropWhile_mark_cons c rest h
          simp only [List.length_cons] at hn hm hlt
          rw [ih m ((c :: rest).dropWhile isMark) (by omega) (by omega)]

lemma nfcOrder_nil : nfcOrder [] = [] := rfl

lemma nfcOrder_cons_starter {c : Char} (h : ccc c = 0) (rest : PyStr) :
    nfcOrder (c :: rest) = c :: nfcOrder rest := by
  show nfcOrderF (c :: rest).length (c :: rest) = c :: nfcOrderF rest.length rest
  simp only [List.length_cons, nfcOrderF, if_pos h]

lemma nfcOrder_cons_mark {c : Char} (h : ccc c ≠ 0) (rest : PyStr) :
    nfcOrder (c :: rest) =
      sortCCC ((c :: rest).takeWhile isMark) ++ nfcOrder ((c :: rest).dropWhile isMark) := by
  show nfcOrderF (c :: rest).length (c :: rest) = _
  simp only [List.length_cons, nfcOrderF, if_neg h]
  rw [nfcOrderF_fuel rest.length ((c :: rest).dropWhile isMark).length
    ((c :: rest).dropWhile isMark)
    (by have := length_dropWhile_mark_cons c rest h
        simp only [List.length_cons] at this
        omega)
    le_rfl]
  rfl

lemma sortCCC_perm (run : PyStr) : (sortCCC run).Perm run :=
  List.perm_insertionSort cccLE run

/-- Canonical ordering is a permutation of its input. -/
lemma nfcOrder_perm : ∀ s : PyStr, (nfcOrder s).Perm s
  | [] => by simp [nfcOrder_nil]
  | c :: rest => by
    by_cases h : ccc c = 0
    · rw [nfcOrder_cons_starter h]
      exact ((nfcOrder_perm rest).cons c)
    · rw [nfcOrder_cons_mark h]
      have h1 := sortCCC_perm ((c :: rest).takeWhile isMark)
      have h2 := nfcOrder_perm ((c :: rest).dropWhile isMark)
      have h3 : List.Perm ((c :: rest).takeWhile isMark ++ (c :: rest).dropWhile isMark)
          (c :: rest) := by
        rw [List.takeWhile_append_dropWhile]
      exact (List.Perm.append h1 h2).trans h3
termination_by s => s.length
decreasing_by
  · simp
  · exact length_dropWhile_mark_cons c rest h

lemma nfcOrder_length (s : PyStr) : (nfcOrder s).length = s.length :=
  (nfcOrder_perm s).length_eq

lemma nfcOrder_mem {s : PyStr} {c : Char} (h : c ∈ nfcOrder s) : c ∈ s :=
  (nfcOrder_perm s).mem_iff.mp h

lemma takeWhile_append_stop {p : Char → Bool} {b : PyStr} (a : PyStr)
    (hb : ∀ d, b.head? = some d → p d = false) :
    (a ++ b).takeWhile p = a.takeWhile p := by
  induction a with
  | nil =>
    simp only [List.nil_append, List.takeWhile_nil]
    match b, hb with
    | [], _ => simp
    | d :: r, hb => rw [List.takeWhile_cons_of_neg]; simp [hb d rfl]
  | cons x a ih =>
    by_cases hx : p x
    · rw [List.cons_append, List.takeWhile_cons_of_pos hx, List.takeWhile_cons_of_pos hx, ih]
    · rw [List.cons_append, List.takeWhile_cons_of_neg hx, List.takeWhile_cons_of_neg hx]

lemma dropWhile_append_stop {p : Char → Bool} {b : PyStr} (a : PyStr)
    (hb : ∀ d, b.head? = some d → p d = false) :
    (a ++ b).dropWhile p = a.dropWhile p ++ b := by
  induction a with
  | nil =>
    simp only [List.nil_append, List.dropWhile_nil]
    match b, hb with
    | [], _ => simp
    | d :: r, hb => rw [List.dropWhile_cons_of_neg]; simp [hb d rfl]
  | cons x a ih =>
    by_cases hx : p x
    · rw [List.cons_append, List.dropWhile_cons_of_pos hx, List.dropWhile_cons_of_pos hx, ih]
    · rw [List.cons_append, List.dropWhile_cons_of_neg hx, List.dropWhile_cons_of_neg hx,
        List.cons_append]

lemma takeWhile_all {p : Char → Bool} {s : PyStr} (h : ∀ c ∈ s, p c = true) :
    s.takeWhile p = s := by
  induction s with
  | nil => simp
  | cons x a ih =>
    rw [List.takeWhile_cons_of_pos (h x (by simp))]
    rw [ih (fun c hc => h c (by simp [hc]))]

lemma dropWhile_all {p : Char → Bool} {s : PyStr} (h : ∀ c ∈ s, p c = true) :
    s.dropWhile p = [] := by
  induction s with
  | nil => simp
  | cons x a ih =>
    rw [List.dropWhile_cons_of_pos (h x (by simp))]
    exact ih (fun c hc => h c (by simp [hc]))

/-- Boundary hypothesis: the right part is empty or begins with a
starter, so no combining-mark run crosses the append boundary. -/
def starterBdry (b : PyStr) : Prop := ∀ d, b.head? = some d → ccc d = 0

lemma nfcOrder_append : ∀ (a : PyStr) {b : PyStr}, starterBdry b →
    nfcOrder (a ++ b) = nfcOrder a ++ nfcOrder b
  | [], b, _ => by simp [nfcOrder_nil]
  | c :: a1, b, hb => by
    by_cases h : ccc c = 0
    · rw [List.cons_append, nfcOrder_cons_starter h, nfcOrder_cons_starter h,
        nfcOrder_append a1 hb, List.cons_append]
    · have hmb : ∀ d, b.head? = some d → isMark d = false := by
        intro d hd; simp [isMark, hb d hd]
      rw [List.cons_append, nfcOrder_cons_mark h]
      have htw : ((c :: (a1 ++ b)).takeWhile isMark) = (c :: a1).takeWhile isMark := by
        have := takeWhile_append_stop (p := isMark) (c :: a1) hmb
        simpa using this
      have hdw : ((c :: (a1 ++ b)).dropWhile isMark) = (c :: a1).dropWhile isMark ++ b := by
        have := dropWhile_append_stop (p := isMark) (c :: a1) hmb
        simpa using this
      rw [htw, hdw, nfcOrder_append ((c :: a1).dropWhile isMark) hb,
        nfcOrder_cons_mark h, List.append_assoc]
termination_by a => a.length
decreasing_by
  · simp
  · exact length_dropWhile_mark_cons c a1 h

lemma nfcOrder_all_starter {s : PyStr} (h : ∀ c ∈ s, ccc c = 0) : nfcOrder s = s := by
  induction s with
  | nil => exact nfcOrder_nil
  | cons x a ih =>
    rw [nfcOrder_cons_starter (h x (by simp))]
    rw [ih (fun c hc => h c (by simp [hc]))]

lemma nfcOrder_allSpace {s : PyStr} (h : allSpace s) : nfcOrder s = s :=
  nfcOrder_all_starter (fun c hc => isPySpace_ccc (h c hc))

lemma nfcOrder_all_mark {s : PyStr} (h : ∀ c ∈ s, ccc c ≠ 0) : nfcOrder s = sortCCC s := by
  match s with
  | [] => rw [nfcOrder_nil]; rfl
  | c :: rest =>
    rw [nfcOrder_cons_mark (h c (by simp))]
    have hmark : ∀ x ∈ c :: rest, isMark x = true := by
      intro x hx; simp [isMark]
      have := h x hx; omega
    rw [takeWhile_all hmark, dropWhile_all hmark, nfcOrder_nil, List.append_nil]

lemma sortCCC_sorted (run : PyStr) : List.Sorted cccLE (sortCCC run) :=
  List.sorted_insertionSort cccLE run

lemma sortCCC_idem (run : PyStr) : sortCCC (sortCCC run) = sortCCC run :=
  List.Sorted.insertionSort_eq (sortCCC_sorted run)

lemma mem_takeWhile_mark {s : PyStr} {x : Char} (h : x ∈ s.takeWhile isMark) :
    ccc x ≠ 0 := by
  have hp : isMark x = true := List.mem_takeWhile_imp h
  simp [isMark] at hp
  omega

lemma head_dropWhile_starter {s : PyStr} {d : Char}
    (hd : (s.dropWhile isMark).head? = some d) : ccc d = 0 := by
  have := List.head?_dropWhile_not isMark s
  rw [hd] at this
  simp at this
  simp [isMark] at this
  exact this

/-- Canonical ordering is idempotent: on this repertoire `NFC(NFC(x)) =
NFC(x)`. -/
lemma nfcOrder_idem : ∀ s : PyStr, nfcOrder (nfcOrder s) = nfcOrder s
  | [] => by simp [nfcOrder_nil]
  | c :: rest => by
    by_cases h : ccc c = 0
    · rw [nfcOrder_cons_starter h, nfcOrder_cons_starter h, nfcOrder_idem rest]
    · rw [nfcOrder_cons_mark h]
      have hbdry : starterBdry (nfcOrder ((c :: rest).dropWhile isMark)) := by
        intro d hd
        match hh : (c :: rest).dropWhile isMark with
        | [] => rw [hh] at hd; rw [nfcOrder_nil] at hd; simp at hd
        | e :: r2 =>
          have he : ccc e = 0 := by
            apply head_dropWhile_starter (s := c :: rest)
            rw [hh]; rfl
          rw [hh, nfcOrder_cons_starter he] at hd
          simp at hd
          rw [← hd]; exact he
      rw [nfcOrder_append _ hbdry, nfcOrder_idem ((c :: rest).dropWhile isMark)]
      have hsort : nfcOrder (sortCCC ((c :: rest).takeWhile isMark))
          = sortCCC ((c :: rest).takeWhile isMark) := by
        have hall : ∀ x ∈ sortCCC ((c :: rest).takeWhile isMark), ccc x ≠ 0 := by
          intro x hx
          exact mem_takeWhile_mark ((sortCCC_perm _).mem_iff.mp hx)
        rw [nfcOrder_all_mark hall, sortCCC_idem]
      rw [hsort]
termination_by s => s.length
decreasing_by
  · simp
  · exact length_dropWhile_mark_cons c rest h

lemma nfcOrder_starter_chunk (p : PyStr) {r : PyStr} (h : ∀ c ∈ p, ccc c = 0) :
    nfcOrder (p ++ r) = p ++ nfcOrder r := by
  induction p with
  | nil => simp
  | cons x a ih =>
    rw [List.cons_append, nfcOrder_cons_starter (h x (by simp)), List.cons_append,
      ih (fun c hc => h c (by simp [hc]))]

lemma nfcOrder_space_chunk {g : PyStr} (r : PyStr) (h : allSpace g) :
    nfcOrder (g ++ r) = g ++ nfcOrder r :=
  nfcOrder_starter_chunk g (fun c hc => isPySpace_ccc (h c hc))

/-- Non-whitespace character test. -/
def notSp (c : Char) : Bool := !(isPySpace c)

lemma takeWhile_append_all {p : Char → Bool} {a : PyStr} (b : PyStr)
    (h : ∀ c ∈ a, p c = true) : (a ++ b).takeWhile p = a ++ b.takeWhile p := by
  induction a with
  | nil => simp
  | cons x a ih =>
    rw [List.cons_append, List.takeWhile_cons_of_pos (h x (by simp)), List.cons_append,
      ih (fun c hc => h c (by simp [hc]))]

lemma dropWhile_append_all {p : Char → Bool} {a : PyStr} (b : PyStr)
    (h : ∀ c ∈ a, p c = true) : (a ++ b).dropWhile p = b.dropWhile p := by
  induction a with
  | nil => simp
  | cons x a ih =>
    rw [List.cons_append, List.dropWhile_cons_of_pos (h x (by simp))]
    exact ih (fun c hc => h c (by simp [hc]))

lemma length_split_step (t : PyStr) (h : t.dropWhile isPySpace ≠ []) :
    ((t.dropWhile isPySpace).dropWhile notSp).length < t.length := by
  match hh : t.dropWhile isPySpace with
  | [] => exact absurd hh h
  | c :: r =>
    have hc : isPySpace c = false := by
      have := List.head?_dropWhile_not isPySpace t
      rw [hh] at this
      simpa using this
    have hc2 : notSp c = true := by simp [notSp, hc]
    rw [List.dropWhile_cons_of_pos hc2]
    calc (r.dropWhile notSp).length ≤ r.length := length_dropWhile_le notSp r
      _ < (c :: r).length := by simp
      _ ≤ t.length := by
          rw [← hh]; exact length_dropWhile_le isPySpace t

/-- Fuel-indexed split; see `pySplit`. -/
def pySplitF : Nat → PyStr → List PyStr
  | 0, _ => []
  | n + 1, t =>
    if t.dropWhile isPySpace = [] then []
    else (t.dropWhile isPySpace).takeWhile notSp ::
      pySplitF n ((t.dropWhile isPySpace).dropWhile notSp)

/-- Model of Python `str.split()` with no separator argument: the list
of maximal whitespace-free runs, in order; leading, trailing and
repeated whitespace produce no empty tokens. -/
def pySplit (t : PyStr) : List PyStr := pySplitF t.length t

/-- Fuel-indexed gap collection; see `wsGaps`. -/
def wsGapsF : Nat → PyStr → List PyStr
  | 0, t => [t.takeWhile isPySpace]
  | n + 1, t =>
    if t.dropWhile isPySpace = [] then [t.takeWhile isPySpace]
    else t.takeWhile isPySpace :: wsGapsF n ((t.dropWhile isPySpace).dropWhile notSp)

/-- The whitespace runs of a text, by position: the run before the
first token, the run between each pair of consecutive tokens, and the
run after the last token (the first and last may be empty).  Always one
element longer than `pySplit t`. -/
def wsGaps (t : PyStr) : List PyStr := wsGapsF t.length t

lemma pySplitF_fuel : ∀ n m : Nat, ∀ t : PyStr, t.length ≤ n → t.length ≤ m →
    pySplitF n t = pySplitF m t := by
  intro n
  induction n with
  | zero =>
    intro m t hn _
    have ht : t = [] := List.length_eq_zero.mp (Nat.le_zero.mp hn)
    subst ht
    cases m with
    | zero => rfl
    | succ m => simp [pySplitF]
  | succ n ih =>
    intro m t hn hm
    by_cases h : t.dropWhile isPySpace = []
    · cases m with
      | zero =>
        have ht : t = [] := List.length_eq_zero.mp (Nat.le_zero.mp hm)
        subst ht
        simp [pySplitF]
      | succ m => simp [pySplitF, h]
    · have hlt := length_split_step t h
      cases m with
      | zero =>
        have ht : t = [] := List.length_eq_zero.mp (Nat.le_zero.mp hm)
        subst ht
        simp at h
      | succ m =>
        simp only [pySplitF, if_neg h]
        rw [ih m ((t.dropWhile isPySpace).dropWhile notSp) (by omega) (by omega)]

lemma wsGapsF_fuel : ∀ n m : Nat, ∀ t : PyStr, t.length ≤ n → t.length ≤ m →
    wsGapsF n t = wsGapsF m t := by
  intro n
  induction n with
  | zero =>
    intro m t hn _
    have ht : t = [] := List.length_eq_zero.mp (Nat.le_zero.mp hn)
    subst ht
    cases m with
    | zero => rfl
    | succ m => simp [wsGapsF]
  | succ n ih =>
    intro m t hn hm
    by_cases h : t.dropWhile isPySpace = []
    · cases m with
      | zero =>
        have ht : t = [] := List.length_eq_zero.mp (Nat.le_zero.mp hm)
        subst ht
        simp [wsGapsF]
      | succ m => simp [wsGapsF, h]
    · have hlt := length_split_step t h
      cases m with
      | zero =>
        have ht : t = [] := List.length_eq_zero.mp (Nat.le_zero.mp hm)
        subst ht
        simp at h
      | succ m =>
        simp only [wsGapsF, if_neg h]
        rw [ih m ((t.dropWhile isPySpace).dropWhile notSp) (by omega) (by omega)]

/-- Interleave a list of gaps (one more than the tokens) with tokens:
`g0 ++ w0 ++ g1 ++ w1 ++ ... ++ gn`. -/
def weaveAll : List PyStr → List PyStr → PyStr
  | [], [] => []
  | [], w :: ws => w ++ weaveAll [] ws
  | g :: gs, [] => g ++ weaveAll gs []
  | g :: gs, w :: ws => g ++ w ++ weaveAll gs ws

lemma pySplit_nil_of (t : PyStr) (h : t.dropWhile isPySpace = []) : pySplit t = [] := by
  rw [pySplit]
  cases hl : t.length with
  | zero => rfl
  | succ n => simp [pySplitF, h]

lemma pySplit_cons_of (t : PyStr) (h : t.dropWhile isPySpace ≠ []) :
    pySplit t = (t.dropWhile isPySpace).takeWhile notSp ::
      pySplit ((t.dropWhile isPySpace).dropWhile notSp) := by
  rw [pySplit, pySplit]
  cases hl : t.length with
  | zero =>
    have ht : t = [] := List.length_eq_zero.mp (by omega)
    subst ht
    simp at h
  | succ n =>
    simp only [pySplitF, if_neg h]
    rw [pySplitF_fuel n ((t.dropWhile isPySpace).dropWhile notSp).length
      ((t.dropWhile isPySpace).dropWhile notSp)
      (by have := length_split_step t h; omega) le_rfl]

lemma wsGaps_last_of (t : PyStr) (h : t.dropWhile isPySpace = []) :
    wsGaps t = [t.takeWhile isPySpace] := by
  rw [wsGaps]
  cases hl : t.length with
  | zero => rfl
  | succ n => simp [wsGapsF, h]

lemma wsGaps_cons_of (t : PyStr) (h : t.dropWhile isPySpace ≠ []) :
    wsGaps t = t.takeWhile isPySpace ::
      wsGaps ((t.dropWhile isPySpace).dropWhile notSp) := by
  rw [wsGaps, wsGaps]
  cases hl : t.length with
  | zero =>
    have ht : t = [] := List.length_eq_zero.mp (by omega)
    subst ht
    simp at h
  | succ n =>
    simp only [wsGapsF, if_neg h]
    rw [wsGapsF_fuel n ((t.dropWhile isPySpace).dropWhile notSp).length
      ((t.dropWhile isPySpace).dropWhile notSp)
      (by have := length_split_step t h; omega) le_rfl]

lemma allSpace_takeWhile (t : PyStr) : allSpace (t.takeWhile isPySpace) :=
  fun _ hc => List.mem_takeWhile_imp hc

lemma noSpace_takeWhile_notSp (t : PyStr) : noSpace (t.takeWhile notSp) := by
  intro c hc
  have := List.mem_takeWhile_imp hc
  simpa [notSp] using this

lemma head_dropWhile_notSp {t : PyStr} {c : Char} {r : PyStr}
    (hh : t.dropWhile isPySpace = c :: r) : isPySpace c = false := by
  have := List.head?_dropWhile_not isPySpace t
  rw [hh] at this
  simpa using this

lemma head_dropWhile_sp {t : PyStr} {c : Char} {r : PyStr}
    (hh : t.dropWhile notSp = c :: r) : isPySpace c = true := by
  have := List.head?_dropWhile_not notSp t
  rw [hh] at this
  simp at this
  simpa [notSp] using this

/-- Well-formed alternation: `gs` is a valid gap sequence for the token
sequence `vs` — every gap is pure whitespace, every token is nonempty
and whitespace-free, and every interior gap (one with a token on both
sides) is nonempty. -/
inductive GapsTok : List PyStr → List PyStr → Prop where
  | last {g : PyStr} (hg : allSpace g) : GapsTok [g] []
  | cons {g v : PyStr} {gs : List PyStr} {vs : List PyStr}
      (hg : allSpace g) (hv : v ≠ []) (hvs : noSpace v)
      (hnext : vs ≠ [] → gs.headD [] ≠ [])
      (htail : GapsTok gs vs) : GapsTok (g :: gs) (v :: vs)

lemma GapsTok.length_eq : ∀ {gs vs}, GapsTok gs vs → gs.length = vs.length + 1 := by
  intro gs vs h
  induction h with
  | last _ => rfl
  | cons _ _ _ _ _ ih => simp [ih]

/-- The gaps and tokens computed from a text are a well-formed
alternation. -/
lemma gapsTok_of_text : ∀ t : PyStr, GapsTok (wsGaps t) (pySplit t)
  | t => by
    by_cases h : t.dropWhile isPySpace = []
    · rw [wsGaps_last_of t h, pySplit_nil_of t h]
      exact GapsTok.last (allSpace_takeWhile t)
    · rw [wsGaps_cons_of t h, pySplit_cons_of t h]
      refine GapsTok.cons (allSpace_takeWhile t) ?_ (noSpace_takeWhile_notSp _)
        ?_ (gapsTok_of_text ((t.dropWhile isPySpace).dropWhile notSp))
      · match hh : t.dropWhile isPySpace with
        | [] => exact absurd hh h
        | c :: r =>
          have hc := head_dropWhile_notSp hh
          rw [List.takeWhile_cons_of_pos (by simp [notSp, hc])]
          simp
      · intro hne
        have hrest_ne : ((t.dropWhile isPySpace).dropWhile notSp).dropWhile isPySpace ≠ [] :=
          fun hcon => hne (pySplit_nil_of _ hcon)
        have hrne : (t.dropWhile isPySpace).dropWhile notSp ≠ [] := by
          intro hcon
          rw [hcon] at hrest_ne
          simp at hrest_ne
        obtain ⟨c, r, hr⟩ := List.exists_cons_of_ne_nil hrne
        have hc : isPySpace c = true := head_dropWhile_sp hr
        rw [hr] at hrest_ne ⊢
        rw [wsGaps_cons_of (c :: r) hrest_ne, List.takeWhile_cons_of_pos hc]
        simp
  termination_by t => t.length
  decreasing_by
    exact length_split_step t h

lemma weaveAll_nil_nil : weaveAll [] [] = [] := by rw [weaveAll]

lemma weaveAll_single (g : PyStr) : weaveAll [g] [] = g := by
  rw [weaveAll, weaveAll_nil_nil, List.append_nil]

lemma weaveAll_cons (g w : PyStr) (gs ws : List PyStr) :
    weaveAll (g :: gs) (w :: ws) = g ++ w ++ weaveAll gs ws := by
  rw [weaveAll]

/-- Reconstruction: interleaving the whitespace runs with the split
tokens gives back the original text. -/
lemma weave_gaps_split : ∀ t : PyStr, weaveAll (wsGaps t) (pySplit t) = t
  | t => by
    by_cases h : t.dropWhile isPySpace = []
    · rw [wsGaps_last_of t h, pySplit_nil_of t h, weaveAll_single]
      have h2 := List.takeWhile_append_dropWhile (p := isPySpace) (l := t)
      rw [h, List.append_nil] at h2
      exact h2
    · rw [wsGaps_cons_of t h, pySplit_cons_of t h, weaveAll_cons]
      rw [weave_gaps_split ((t.dropWhile isPySpace).dropWhile notSp)]
      rw [List.append_assoc, List.takeWhile_append_dropWhile]
      exact List.takeWhile_append_dropWhile isPySpace t
  termination_by t => t.length
  decreasing_by
    exact length_split_step t h

lemma starterBdry_of_allSpace {s : PyStr} (h : allSpace s) : starterBdry s := by
  intro d hd
  match s, hd with
  | c :: r, hd =>
    simp at hd
    exact hd ▸ isPySpace_ccc (h c (by simp))

lemma starterBdry_weave {gs vs : List PyStr} (h : GapsTok gs vs)
    (hh : vs = [] ∨ gs.headD [] ≠ []) : starterBdry (weaveAll gs vs) := by
  cases h with
  | last hg =>
    rw [weaveAll_single]
    exact starterBdry_of_allSpace hg
  | @cons g v gs vs hg hv hvs hnext htail =>
    have hgne : g ≠ [] := by
      rcases hh with hh | hh
      · exact absurd hh (by simp)
      · simpa using hh
    obtain ⟨c, r, hc⟩ := List.exists_cons_of_ne_nil hgne
    intro d hd
    rw [weaveAll_cons, hc] at hd
    simp at hd
    exact hd ▸ isPySpace_ccc (hg c (by simp [hc]))

lemma weave_head_space {gs vs : List PyStr} (h : GapsTok gs vs)
    (hh : vs = [] ∨ gs.headD [] ≠ []) :
    (weaveAll gs vs).takeWhile notSp = [] ∧
      (weaveAll gs vs).dropWhile notSp = weaveAll gs vs := by
  cases h with
  | @last g hg =>
    rw [weaveAll_single]
    match g with
    | [] => simp
    | c :: r =>
      have hc : notSp c = false := by simp [notSp, hg c (by simp)]
      rw [List.takeWhile_cons_of_neg (by simp [hc]), List.dropWhile_cons_of_neg (by simp [hc])]
      exact ⟨rfl, rfl⟩
  | @cons g v gs vs hg hv hvs hnext htail =>
    have hgne : g ≠ [] := by
      rcases hh with hh | hh
      · exact absurd hh (by simp)
      · simpa using hh
    obtain ⟨c, r, hc⟩ := List.exists_cons_of_ne_nil hgne
    have hcsp : notSp c = false := by simp [notSp, hg c (by simp [hc])]
    rw [weaveAll_cons, hc]
    simp only [List.cons_append]
    rw [List.takeWhile_cons_of_neg (by simp [hcsp]), List.dropWhile_cons_of_neg (by simp [hcsp])]
    exact ⟨rfl, rfl⟩

/-- Canonical ordering distributes over a well-formed gap/token
alternation: each token is normalized in place and the whitespace gaps
are untouched. -/
lemma nfcOrder_weave {gs vs : List PyStr} (h : GapsTok gs vs) :
    nfcOrder (weaveAll gs vs) = weaveAll gs (vs.map nfcOrder) := by
  induction h with
  | @last g hg =>
    rw [weaveAll_single, List.map_nil, weaveAll_single]
    exact nfcOrder_allSpace hg
  | @cons g v gs vs hg hv hvs hnext htail ih =>
    have hbdry : starterBdry (weaveAll gs vs) := by
      apply starterBdry_weave htail
      by_cases hvs0 : vs = []
      · exact Or.inl hvs0
      · exact Or.inr (hnext hvs0)
    rw [weaveAll_cons, List.append_assoc, nfcOrder_space_chunk _ hg,
      nfcOrder_append v hbdry, ih, List.map_cons, weaveAll_cons, List.append_assoc]

/-- Splitting a well-formed alternation recovers exactly its gaps and
tokens. -/
lemma weave_split_gaps {gs vs : List PyStr} (h : GapsTok gs vs) :
    wsGaps (weaveAll gs vs) = gs ∧ pySplit (weaveAll gs vs) = vs := by
  induction h with
  | @last g hg =>
    rw [weaveAll_single]
    have hdrop : g.dropWhile isPySpace = [] := dropWhile_all hg
    rw [wsGaps_last_of g hdrop, pySplit_nil_of g hdrop, takeWhile_all hg]
    exact ⟨rfl, rfl⟩
  | @cons g v gs vs hg hv hvs hnext htail ih =>
    obtain ⟨cv, rv, hcv⟩ := List.exists_cons_of_ne_nil hv
    have hcvn : isPySpace cv = false := hvs cv (by simp [hcv])
    have hW := weave_head_space htail (by
      by_cases hvs0 : vs = []
      · exact Or.inl hvs0
      · exact Or.inr (hnext hvs0))
    have hdw : (weaveAll (g :: gs) (v :: vs)).dropWhile isPySpace =
        v ++ weaveAll gs vs := by
      rw [weaveAll_cons, List.append_assoc, dropWhile_append_all _ hg, hcv,
        List.cons_append, List.dropWhile_cons_of_neg (by simp [hcvn])]
    have hne : (weaveAll (g :: gs) (v :: vs)).dropWhile isPySpace ≠ [] := by
      rw [hdw, hcv]; simp
    have htw : (weaveAll (g :: gs) (v :: vs)).takeWhile isPySpace = g := by
      rw [weaveAll_cons, List.append_assoc, takeWhile_append_all _ hg, hcv,
        List.cons_append, List.takeWhile_cons_of_neg (by simp [hcvn]), List.append_nil]
    have hsplitv : (v ++ weaveAll gs vs).takeWhile notSp = v := by
      rw [takeWhile_append_all _ (by intro c hcm; simp [notSp, hvs c hcm]), hW.1,
        List.append_nil]
    have hdropv : (v ++ weaveAll gs vs).dropWhile notSp = weaveAll gs vs := by
      rw [dropWhile_append_all _ (by intro c hcm; simp [notSp, hvs c hcm]), hW.2]
    constructor
    · rw [wsGaps_cons_of _ hne, htw, hdw, hdropv, ih.1]
    · rw [pySplit_cons_of _ hne, hdw, hsplitv, hdropv, ih.2]

/-- A well-formed alternation stays well-formed when its tokens are
replaced by any nonempty whitespace-free tokens of the same count. -/
lemma GapsTok.replaceToks {gs vs : List PyStr} (h : GapsTok gs vs) :
    ∀ vs' : List PyStr, vs'.length = vs.length →
      (∀ w ∈ vs', w ≠ [] ∧ noSpace w) → GapsTok gs vs' := by
  induction h with
  | @last g hg =>
    intro vs' hlen _
    rw [List.length_nil, List.length_eq_zero] at hlen
    exact hlen ▸ GapsTok.last hg
  | @cons g v gs vs hg hv hvs hnext htail ih =>
    intro vs' hlen hws
    match vs' with
    | [] => simp at hlen
    | w :: ws' =>
      simp at hlen
      refine GapsTok.cons hg (hws w (by simp)).1 (hws w (by simp)).2 ?_
        (ih ws' hlen (fun x hx => hws x (by simp [hx])))
      intro hne
      apply hnext
      intro hcon
      rw [hcon] at hlen
      simp at hlen
      exact hne hlen

lemma nfcOrder_tok_ok {w : PyStr} (hne : w ≠ []) (hns : noSpace w) :
    nfcOrder w ≠ [] ∧ noSpace (nfcOrder w) := by
  constructor
  · intro hcon
    have := nfcOrder_length w
    rw [hcon] at this
    simp at this
    exact hne (List.length_eq_zero.mp this.symm)
  · intro c hc
    exact hns c (nfcOrder_mem hc)

/-- Index of the first occurrence of `w` as a contiguous substring, if
any. -/
def findPref (w : PyStr) : PyStr → Option Nat
  | [] => if w.isPrefixOf [] then some 0 else none
  | c :: r => if w.isPrefixOf (c :: r) then some 0 else (findPref w r).map (· + 1)

/-- Model of Python `text.find(word, start)`: the lowest index `≥ start`
at which `word` occurs in `text`, `none` standing for Python's `-1`. -/
def pyFind (text w : PyStr) (start : Nat) : Option Nat :=
  (findPref w (text.drop start)).map (· + start)

/-- The whitespace-collection loop of `get_nikud`
(`src/utils/nakdan_api.py` lines 368–385): for each word of
`text.split()`, find the word from the current position, record the
slice between the current position and the word as that word's
preceding whitespace, and advance past the word.  Returns the collected
spans together with the final position. -/
def collectSpacesLoop (text : PyStr) : List PyStr → Nat → List PyStr × Nat
  | [], pos => ([], pos)
  | w :: ws, pos =>
    match pyFind text w pos with
    | some p =>
      let sp := if pos < p then (text.drop pos).take (p - pos) else []
      let rest := collectSpacesLoop text ws (p + w.length)
      (sp :: rest.1, rest.2)
    | none =>
      -- Python `str.find` returns -1 only when the word does not occur at
      -- or after `pos`; for the words produced by `text.split()` this
      -- never happens (`collectLoop_spec` below), so this branch is
      -- unreachable in `get_nikud`.
      let rest := collectSpacesLoop text ws pos
      ([] :: rest.1, rest.2)

/-- The `original_spaces` list built by `get_nikud`: the loop's spans
plus the trailing span `text[current_pos:]` (or `''`). -/
def collect_original_spaces (text : PyStr) : List PyStr :=
  let r := collectSpacesLoop text (pySplit text) 0
  r.1 ++ [if r.2 < text.length then text.drop r.2 else []]

lemma findPref_at_gap {w : PyStr} (g rest : PyStr) (hg : allSpace g)
    {cw : Char} {rw2 : PyStr} (hw : w = cw :: rw2) (hcw : isPySpace cw = false) :
    findPref w (g ++ (w ++ rest)) = some g.length := by
  subst hw
  induction g with
  | nil =>
    rw [List.nil_append, List.cons_append, findPref]
    have hpref : (cw :: rw2).isPrefixOf (cw :: (rw2 ++ rest)) = true := by
      rw [List.isPrefixOf_iff_prefix]
      have := List.prefix_append (cw :: rw2) rest
      simpa using this
    rw [if_pos hpref]
    rfl
  | cons c g1 ih =>
    have hnp : (cw :: rw2).isPrefixOf (c :: (g1 ++ (cw :: rw2 ++ rest))) = false := by
      by_contra hcon
      simp only [Bool.not_eq_false, List.isPrefixOf_iff_prefix] at hcon
      obtain ⟨s, hs⟩ := hcon
      have hcc : cw = c := by
        have h2 := congrArg (fun l => l.head?) hs
        simp at h2
        exact h2
      rw [hcc, hg c (by simp)] at hcw
      exact Bool.true_eq_false.mp hcw
    rw [List.cons_append, findPref, if_neg (by rw [hnp]; simp)]
    rw [ih (fun x hx => hg x (by simp [hx]))]
    rfl

/-- Fuel-indexed variant of `tokEnd`. -/
def tokEndF : Nat → PyStr → Nat
  | 0, _ => 0
  | n + 1, t =>
    if t.dropWhile isPySpace = [] then 0
    else (t.takeWhile isPySpace).length + ((t.dropWhile isPySpace).takeWhile notSp).length +
      tokEndF n ((t.dropWhile isPySpace).dropWhile notSp)

/-- Length of a text up to the end of its last whitespace-separated
token (0 when there is no token). -/
def tokEnd (t : PyStr) : Nat := tokEndF t.length t

lemma tokEndF_fuel : ∀ n m : Nat, ∀ t : PyStr, t.length ≤ n → t.length ≤ m →
    tokEndF n t = tokEndF m t := by
  intro n
  induction n with
  | zero =>
    intro m t hn _
    have ht : t = [] := List.length_eq_zero.mp (Nat.le_zero.mp hn)
    subst ht
    cases m with
    | zero => rfl
    | succ m => simp [tokEndF]
  | succ n ih =>
    intro m t hn hm
    by_cases h : t.dropWhile isPySpace = []
    · cases m with
      | zero =>
        have ht : t = [] := List.length_eq_zero.mp (Nat.le_zero.mp hm)
        subst ht
        simp [tokEndF]
      | succ m => simp [tokEndF, h]
    · have hlt := length_split_step t h
      cases m with
      | zero =>
        have ht : t = [] := List.length_eq_zero.mp (Nat.le_zero.mp hm)
        subst ht
        simp at h
      | succ m =>
        simp only [tokEndF, if_neg h]
        rw [ih m ((t.dropWhile isPySpace).dropWhile notSp) (by omega) (by omega)]

lemma tokEnd_nil_of (t : PyStr) (h : t.dropWhile isPySpace = []) : tokEnd t = 0 := by
  rw [tokEnd]
  cases hl : t.length with
  | zero => rfl
  | succ n => simp [tokEndF, h]

lemma tokEnd_cons_of (t : PyStr) (h : t.dropWhile isPySpace ≠ []) :
    tokEnd t = (t.takeWhile isPySpace).length +
      ((t.dropWhile isPySpace).takeWhile notSp).length +
      tokEnd ((t.dropWhile isPySpace).dropWhile notSp) := by
  rw [tokEnd, tokEnd]
  cases hl : t.length with
  | zero =>
    have ht : t = [] := List.length_eq_zero.mp (by omega)
    subst ht
    simp at h
  | succ n =>
    simp only [tokEndF, if_neg h]
    rw [tokEndF_fuel n ((t.dropWhile isPySpace).dropWhile notSp).length
      ((t.dropWhile isPySpace).dropWhile notSp)
      (by have := length_split_step t h; omega) le_rfl]

lemma wsGaps_ne_nil (t : PyStr) : wsGaps t ≠ [] := by
  by_cases h : t.dropWhile isPySpace = []
  · rw [wsGaps_last_of t h]; simp
  · rw [wsGaps_cons_of t h]; simp

/-- The whitespace run after the last token. -/
def lastGap (t : PyStr) : PyStr := (wsGaps t).getLastD []

lemma getLastD_cons_of_ne {l : List PyStr} (a d : PyStr) (h : l ≠ []) :
    (a :: l).getLastD d = l.getLastD d := by
  match l with
  | [] => exact absurd rfl h
  | b :: m => rfl

lemma lastGap_nil_of (t : PyStr) (h : t.dropWhile isPySpace = []) :
    lastGap t = t := by
  have hall : allSpace t := by
    intro c hc
    exact List.dropWhile_eq_nil_iff.mp h c hc
  rw [lastGap, wsGaps_last_of t h]
  simp [takeWhile_all hall]

lemma lastGap_cons_of (t : PyStr) (h : t.dropWhile isPySpace ≠ []) :
    lastGap t = lastGap ((t.dropWhile isPySpace).dropWhile notSp) := by
  rw [lastGap, wsGaps_cons_of t h,
    getLastD_cons_of_ne _ _ (wsGaps_ne_nil _)]
  rfl

lemma drop_tokEnd_aux : ∀ n : Nat, ∀ t : PyStr, t.length ≤ n →
    t.drop (tokEnd t) = lastGap t := by
  intro n
  induction n with
  | zero =>
    intro t ht
    have ht0 : t = [] := List.length_eq_zero.mp (Nat.le_zero.mp ht)
    subst ht0
    rw [tokEnd_nil_of [] (by simp), lastGap_nil_of [] (by simp), List.drop_zero]
  | succ n ih =>
    intro t ht
    by_cases h : t.dropWhile isPySpace = []
    · rw [tokEnd_nil_of t h, lastGap_nil_of t h, List.drop_zero]
    · rw [tokEnd_cons_of t h, lastGap_cons_of t h]
      have hdec : t = (t.takeWhile isPySpace ++ (t.dropWhile isPySpace).takeWhile notSp) ++
          (t.dropWhile isPySpace).dropWhile notSp := by
        rw [List.append_assoc, List.takeWhile_append_dropWhile, List.takeWhile_append_dropWhile]
      have hlt := length_split_step t h
      set a := t.takeWhile isPySpace with hadef
      set b := (t.dropWhile isPySpace).takeWhile notSp with hbdef
      set r := (t.dropWhile isPySpace).dropWhile notSp with hrdef
      have hlen : a.length + b.length + tokEnd r = (a ++ b).length + tokEnd r := by simp
      rw [hlen]
      conv_lhs => rw [hdec]
      rw [List.drop_append]
      exact ih r (by omega)

lemma drop_tokEnd (t : PyStr) : t.drop (tokEnd t) = lastGap t :=
  drop_tokEnd_aux t.length t le_rfl

lemma tokEnd_le_aux : ∀ n : Nat, ∀ t : PyStr, t.length ≤ n → tokEnd t ≤ t.length := by
  intro n
  induction n with
  | zero =>
    intro t ht
    have ht0 : t = [] := List.length_eq_zero.mp (Nat.le_zero.mp ht)
    subst ht0
    rw [tokEnd_nil_of [] (by simp)]
    simp
  | succ n ih =>
    intro t ht
    by_cases h : t.dropWhile isPySpace = []
    · rw [tokEnd_nil_of t h]; simp
    · rw [tokEnd_cons_of t h]
      have hdec : t = (t.takeWhile isPySpace ++ (t.dropWhile isPySpace).takeWhile notSp) ++
          (t.dropWhile isPySpace).dropWhile notSp := by
        rw [List.append_assoc, List.takeWhile_append_dropWhile, List.takeWhile_append_dropWhile]
      have hlt := congrArg List.length hdec
      simp only [List.length_append] at hlt
      have hrest := ih ((t.dropWhile isPySpace).dropWhile notSp) (by
        have := length_split_step t h
        omega)
      omega

lemma tokEnd_le (t : PyStr) : tokEnd t ≤ t.length :=
  tokEnd_le_aux t.length t le_rfl

lemma dropLast_cons_of_ne {α : Type} (a : α) {l : List α} (h : l ≠ []) :
    (a :: l).dropLast = a :: l.dropLast := by
  match l with
  | [] => exact absurd rfl h
  | b :: m => rfl

lemma dropLast_append_getLastD {l : List PyStr} (h : l ≠ []) :
    l.dropLast ++ [l.getLastD []] = l := by
  induction l with
  | nil => exact absurd rfl h
  | cons a l ih =>
    match l with
    | [] => rfl
    | b :: m =>
      rw [dropLast_cons_of_ne a (by simp), getLastD_cons_of_ne a [] (by simp)]
      rw [List.cons_append, ih (by simp)]

lemma collectLoop_cons (text : PyStr) (w : PyStr) (ws : List PyStr) (pos : Nat) :
    collectSpacesLoop text (w :: ws) pos =
      match pyFind text w pos with
      | some p =>
        ((if pos < p then (text.drop pos).take (p - pos) else []) ::
          (collectSpacesLoop text ws (p + w.length)).1,
          (collectSpacesLoop text ws (p + w.length)).2)
      | none =>
        ([] :: (collectSpacesLoop text ws pos).1, (collectSpacesLoop text ws pos).2) := by
  rw [collectSpacesLoop]

lemma collectLoop_nil (text : PyStr) (pos : Nat) :
    collectSpacesLoop text [] pos = ([], pos) := by
  rw [collectSpacesLoop]

/-- The whitespace-collection loop of `get_nikud` computes exactly the
whitespace runs of the text (except the trailing one) and stops at the
end of the last token: Python's `text.find(word, current_pos)` always
locates the next token exactly where it stands, because the characters
skipped are whitespace and a token starts with a non-whitespace
character. -/
lemma collectLoop_spec_aux : ∀ n : Nat, ∀ t pre : PyStr, t.length ≤ n →
    collectSpacesLoop (pre ++ t) (pySplit t) pre.length
      = ((wsGaps t).dropLast, pre.length + tokEnd t) := by
  intro n
  induction n with
  | zero =>
    intro t pre ht
    have ht0 : t = [] := List.length_eq_zero.mp (Nat.le_zero.mp ht)
    subst ht0
    rw [pySplit_nil_of [] (by simp), collectLoop_nil, wsGaps_last_of [] (by simp),
      tokEnd_nil_of [] (by simp)]
    simp
  | succ n ih =>
    intro t pre ht
    by_cases h : t.dropWhile isPySpace = []
    · rw [pySplit_nil_of t h, collectLoop_nil, wsGaps_last_of t h, tokEnd_nil_of t h]
      simp
    · obtain ⟨cw, rw2, hw⟩ := List.exists_cons_of_ne_nil h
      have hcw : isPySpace cw = false := head_dropWhile_notSp hw
      have hwtok : (t.dropWhile isPySpace).takeWhile notSp =
          cw :: rw2.takeWhile notSp := by
        rw [hw, List.takeWhile_cons_of_pos (by simp [notSp, hcw])]
      have hg : allSpace (t.takeWhile isPySpace) := allSpace_takeWhile t
      have hdec : t = t.takeWhile isPySpace ++ ((t.dropWhile isPySpace).takeWhile notSp ++
          (t.dropWhile isPySpace).dropWhile notSp) := by
        rw [List.takeWhile_append_dropWhile, List.takeWhile_append_dropWhile]
      have hlt := length_split_step t h
      rw [pySplit_cons_of t h, wsGaps_cons_of t h, tokEnd_cons_of t h]
      set g := t.takeWhile isPySpace with hgdef
      set w := (t.dropWhile isPySpace).takeWhile notSp with hwdef
      set rest := (t.dropWhile isPySpace).dropWhile notSp with hrestdef
      have hfind : pyFind (pre ++ t) w pre.length = some (g.length + pre.length) := by
        rw [pyFind, List.drop_left]
        conv_lhs => rw [hdec]
        rw [findPref_at_gap g rest hg hwtok hcw]
        rfl
      rw [collectLoop_cons, hfind]
      have hsp : (if pre.length < g.length + pre.length then
          ((pre ++ t).drop pre.length).take (g.length + pre.length - pre.length) else []) = g := by
        by_cases hg0 : g.length = 0
        · rw [if_neg (by omega)]
          have : g = [] := List.length_eq_zero.mp hg0
          rw [this]
        · rw [if_pos (by omega), List.drop_left]
          have harith : g.length + pre.length - pre.length = g.length := by omega
          rw [harith]
          conv_lhs => rw [hdec]
          exact List.take_left g (w ++ rest)
      have hrec : collectSpacesLoop (pre ++ t) (pySplit rest) (g.length + pre.length + w.length)
          = ((wsGaps rest).dropLast, (pre ++ (g ++ w)).length + tokEnd rest) := by
        have hsplit2 : pre ++ t = (pre ++ (g ++ w)) ++ rest := by
          conv_lhs => rw [hdec]
          simp
        have hposeq : g.length + pre.length + w.length = (pre ++ (g ++ w)).length := by
          simp
          omega
        rw [hsplit2, hposeq]
        exact ih rest (pre ++ (g ++ w)) (by omega)
      simp only [hsp, hrec]
      rw [dropLast_cons_of_ne g (wsGaps_ne_nil rest)]
      have harith : (pre ++ (g ++ w)).length + tokEnd rest =
          pre.length + (g.length + w.length + tokEnd rest) := by
        simp
        omega
      rw [harith]

lemma collect_original_spaces_eq (t : PyStr) : collect_original_spaces t = wsGaps t := by
  rw [collect_original_spaces]
  have hspec := collectLoop_spec_aux t.length t [] le_rfl
  rw [List.nil_append] at hspec
  simp only [List.length_nil] at hspec
  rw [hspec]
  have h0 : 0 + tokEnd t = tokEnd t := by omega
  simp only [h0]
  have htail : (if tokEnd t < t.length then t.drop (tokEnd t) else []) = lastGap t := by
    by_cases hc : tokEnd t < t.length
    · rw [if_pos hc, drop_tokEnd]
    · rw [if_neg hc]
      have hge : t.length ≤ tokEnd t := by omega
      have hdt := drop_tokEnd t
      rw [List.drop_eq_nil_of_le hge] at hdt
      exact hdt
  rw [htail]
  exact dropLast_append_getLastD (wsGaps_ne_nil t)

/-- The word-joining loop of `get_nikud` (lines 402–408): for each
processed word, first emit `original_spaces[i]` (when `i` is in range),
then the word normalized by `Hebrew(word).normalize()`. -/
def joinWithSpaces : List PyStr → List PyStr → PyStr
  | _, [] => []
  | sps, w :: ws => sps.headD [] ++ nfcOrder w ++ joinWithSpaces sps.tail ws

/-- The reassembly performed by `get_nikud` (lines 367–416): collect the
original whitespace spans, interleave them with the processed words,
append the trailing span when there is one more span than words, and
normalize the final string. -/
def get_nikud_assemble (text : PyStr) (toks : List PyStr) : PyStr :=
  let spaces := collect_original_spaces text
  let main := joinWithSpaces spaces toks
  let withTail := if spaces ≠ [] ∧ toks.length < spaces.length
    then main ++ spaces.getLastD [] else main
  nfcOrder withTail

lemma joinWithSpaces_nil (sps : List PyStr) : joinWithSpaces sps [] = [] := by
  rw [joinWithSpaces]

lemma joinWithSpaces_cons (sps : List PyStr) (w : PyStr) (ws : List PyStr) :
    joinWithSpaces sps (w :: ws) =
      sps.headD [] ++ nfcOrder w ++ joinWithSpaces sps.tail ws := by
  rw [joinWithSpaces]

lemma joinWithSpaces_weave : ∀ (vs gs : List PyStr), gs.length = vs.length + 1 →
    joinWithSpaces gs vs ++ gs.getLastD [] = weaveAll gs (vs.map nfcOrder) := by
  intro vs
  induction vs with
  | nil =>
    intro gs hlen
    match gs, hlen with
    | [g], _ =>
      rw [joinWithSpaces_nil, List.map_nil, weaveAll_single]
      rfl
  | cons v vs ih =>
    intro gs hlen
    match gs with
    | g :: gs1 =>
      have hlen1 : gs1.length = vs.length + 1 := by
        simp at hlen
        exact hlen
      have hne : gs1 ≠ [] := by
        intro hcon
        rw [hcon] at hlen1
        simp at hlen1
      rw [joinWithSpaces_cons, List.map_cons, weaveAll_cons]
      rw [getLastD_cons_of_ne _ _ hne]
      show g ++ nfcOrder v ++ joinWithSpaces gs1 vs ++ gs1.getLastD [] =
        g ++ nfcOrder v ++ weaveAll gs1 (vs.map nfcOrder)
      rw [List.append_assoc, List.append_assoc, List.append_assoc, ih gs1 hlen1]

lemma wsGaps_length (t : PyStr) : (wsGaps t).length = (pySplit t).length + 1 :=
  (gapsTok_of_text t).length_eq

/-- Main reassembly lemma: when the processed tokens correspond
one-to-one to the words of the original text (each nonempty and free of
whitespace), `get_nikud`'s reassembly (a) equals the original
whitespace runs interleaved with the normalized tokens, (b) preserves
every whitespace run of the original exactly and in position, and (c)
its tokens are exactly the normalized processed tokens. -/
lemma assemble_spec (t : PyStr) (toks : List PyStr)
    (hlen : toks.length = (pySplit t).length)
    (htoks : ∀ w ∈ toks, w ≠ [] ∧ noSpace w) :
    get_nikud_assemble t toks = weaveAll (wsGaps t) (toks.map nfcOrder) ∧
    wsGaps (get_nikud_assemble t toks) = wsGaps t ∧
    pySplit (get_nikud_assemble t toks) = toks.map nfcOrder := by
  have hgt0 : GapsTok (wsGaps t) toks :=
    (gapsTok_of_text t).replaceToks toks (by rw [hlen]) htoks
  have hgt : GapsTok (wsGaps t) (toks.map nfcOrder) := by
    apply hgt0.replaceToks
    · simp
    · intro w hwm
      simp at hwm
      obtain ⟨x, hx, hxe⟩ := hwm
      subst hxe
      exact nfcOrder_tok_ok (htoks x hx).1 (htoks x hx).2
  have hform : get_nikud_assemble t toks = weaveAll (wsGaps t) (toks.map nfcOrder) := by
    rw [get_nikud_assemble]
    simp only [collect_original_spaces_eq]
    have hcond : wsGaps t ≠ [] ∧ toks.length < (wsGaps t).length := by
      refine ⟨wsGaps_ne_nil t, ?_⟩
      rw [wsGaps_length, hlen]
      omega
    rw [if_pos hcond]
    rw [joinWithSpaces_weave toks (wsGaps t) (by rw [wsGaps_length, hlen])]
    rw [nfcOrder_weave hgt]
    have hmm : (toks.map nfcOrder).map nfcOrder = toks.map nfcOrder := by
      rw [List.map_map]
      apply List.map_congr_left
      intro x _
      exact nfcOrder_idem x
    rw [hmm]
  refine ⟨hform, ?_, ?_⟩
  · rw [hform]
    exact (weave_split_gaps hgt).1
  · rw [hform]
    exact (weave_split_gaps hgt).2

/-! ### Repository data model (`src/utils`) -/

/-- `MAX_TEXT_LENGTH` from `src/utils/hebrew_constants.py` line 22. -/
def MAX_TEXT_LENGTH : Nat := 500

/-- `ERROR_MESSAGES["empty_text"]`. -/
def errEmptyText : String := "Text cannot be empty"

/-- `ERROR_MESSAGES["text_too_long"]` (the f-string interpolates
`MAX_TEXT_LENGTH = 500`). -/
def errTooLong : String := "Text exceeds maximum length of 500 characters"

/-- `ERROR_MESSAGES["non_hebrew"]`. -/
def errNonHebrew : String := "Text must contain Hebrew characters"

/-- A dynamically-typed JSON value inside the `options` field of a
response item (strings, or nested lists for the analyze task). -/
inductive Pv where
  | str (s : PyStr)
  | lst (xs : List Pv)

/-- One morphological analysis record (`MorphData` in
`src/utils/nakdan_types.py`).  The source field `prefix` is spelled
`pfx` here because `prefix` is reserved in Lean; `lemma` is spelled
`lem` for the same reason. -/
structure MorphData where
  word : PyStr
  pfx : PyStr
  suffix : PyStr
  menukad : PyStr
  lem : PyStr
  pos : PyStr
  gender : PyStr
  number : PyStr
  person : PyStr
  status : PyStr
  tense : PyStr
  binyan : PyStr
  suf_gender : PyStr
  suf_person : PyStr
  suf_number : PyStr
deriving DecidableEq

/-- One entry of `NakdanResponse.word_analysis` (a Python dict):
a full `MorphData` dict for analyzed words, a `{'word','lemma'}` dict
for lemmatization, or the empty dict `{}` appended for non-dict
response items. -/
inductive WAEntry where
  | morph (m : MorphData)
  | lemmaEntry (word : PyStr) (lem : Pv)
  | emptyDict

/-- `NakdanResponse` (`src/utils/models.py`); the unused `lemmas` and
`pos_tags` fields always default to `[]` in this code base and are
omitted. -/
structure NakdanResponse where
  text : PyStr
  error : Option String
  word_analysis : List WAEntry

/-- Constructing a `NakdanResponse` runs the pydantic validator
`validate_text_length` (`src/utils/models.py` lines 23–27): a text
longer than `MAX_TEXT_LENGTH` raises a `ValidationError` (a
`ValueError`). -/
def mkNakdanResponse (text : PyStr) (error : Option String) (wa : List WAEntry) :
    Except String NakdanResponse :=
  if text.length > MAX_TEXT_LENGTH then
    .error "Text exceeds maximum length of 500 characters"
  else
    .ok ⟨text, error, wa⟩

/-- Python `str.strip()`: remove leading and trailing whitespace. -/
def pyStrip (s : PyStr) : PyStr :=
  ((s.dropWhile isPySpace).reverse.dropWhile isPySpace).reverse

/-- `is_hebrew` (`src/utils/nakdan_api.py` lines 188–192): true when any
character lies in the Hebrew block U+0590–U+05FF.  (`Hebrew(text)`
followed by `str(...)` is the identity on the underlying string.) -/
def is_hebrew (text : PyStr) : Bool :=
  text.any (fun c => decide (0x0590 ≤ c.toNat ∧ c.toNat ≤ 0x05FF))

/-- `_check_text_requirements` (`src/utils/nakdan_api.py` lines 35–46).
The error responses constructed here carry the empty text, which always
passes the pydantic length validator. -/
def check_text_requirements (text : PyStr) (max_length : Nat) : Option NakdanResponse :=
  if pyStrip text = [] then some ⟨[], some errEmptyText, []⟩
  else if text.length > max_length then some ⟨[], some errTooLong, []⟩
  else if !(is_hebrew text) then some ⟨[], some errNonHebrew, []⟩
  else none

/-- `sanitize_input` (`src/utils/nakdan_api.py` lines 48–50):
`re.sub(r'[^\x20-\x7E]', '', text)` deletes every character outside
printable ASCII — including every Hebrew character. -/
def sanitize_input (text : PyStr) : PyStr :=
  text.filter (fun c => decide (0x20 ≤ c.toNat ∧ c.toNat ≤ 0x7E))

/-- `NakdanTask` (`src/utils/nakdan_types.py`). -/
inductive NakdanTask where
  | nakdan
  | analyze
deriving DecidableEq

/-- The parts of the JSON request body built by `_call_nakdan_api`
(lines 217–239) that the claims speak about; the remaining keys are
constant flags and the API key. -/
structure NakdanPayload where
  task : NakdanTask
  data : PyStr
  genre : String
deriving DecidableEq

/-- Payload construction in `_call_nakdan_api`: the `analyze` branch
sends the text unchanged, the default (`nakdan`/vowelize) branch sends
`sanitize_input(text)`. -/
def build_payload (task : NakdanTask) (text : PyStr) : NakdanPayload :=
  match task with
  | .analyze => ⟨.analyze, text, "modern"⟩
  | .nakdan => ⟨.nakdan, sanitize_input text, "modern"⟩

/-- The Python exceptions that can reach `_handle_api_error`. -/
inductive PyExc where
  | nakdanAPIError (msg : String)
  | httpStatusError (status : Nat)
  | httpTransportError (msg : String)
  | keyError (msg : String)
  | valueError (msg : String)
  | typeError (msg : String)
  | retryError (last : PyExc)
deriving DecidableEq

/-- Shape of `str(e)` for each exception (the exact rendering of the
status digit or wrapped exception is irrelevant to every claim). -/
def pyExcStr : PyExc → String
  | .nakdanAPIError m => m
  | .httpStatusError s => "HTTP status error " ++ toString s
  | .httpTransportError m => m
  | .keyError m => m
  | .valueError m => m
  | .typeError m => m
  | .retryError _ => "RetryError"

/-- `_handle_api_error` (`src/utils/nakdan_api.py` lines 425–470): the
`isinstance` chain tests `NakdanAPIError`, then `httpx.HTTPError`
(which covers both transport errors and `HTTPStatusError`), then
`KeyError`, and otherwise falls through to the generic
`Processing error` branch — which is where `tenacity.RetryError`,
`ValueError` and `TypeError` land. -/
def handle_api_error (e : PyExc) : NakdanResponse :=
  match e with
  | .nakdanAPIError m => ⟨[], some m, []⟩
  | .httpStatusError _ => ⟨[], some ("Connection error: " ++ pyExcStr e), []⟩
  | .httpTransportError _ => ⟨[], some ("Connection error: " ++ pyExcStr e), []⟩
  | .keyError m => ⟨[], some ("Invalid API response format: " ++ m), []⟩
  | _ => ⟨[], some ("Processing error: " ++ pyExcStr e), []⟩

/-- The retry loop of tenacity's
`@retry(stop=stop_after_attempt(3), wait=wait_exponential(...))`
(`src/utils/nakdan_api.py` lines 194–197): `f i` is the outcome of the
`i`-th attempt (0-based) of the decorated call; with no `retry=`
argument tenacity retries on EVERY `Exception`, and when the stop
condition is reached it raises a `RetryError` wrapping the last
attempt's exception (`reraise` defaults to `False`). -/
def attemptLoop (f : Nat → Except PyExc (List α)) : Nat → Nat → Except PyExc (List α)
  | _, 0 => .error (.retryError (.valueError "unreachable: zero attempt budget"))
  | i, n + 1 =>
    match f i with
    | .ok a => .ok a
    | .error e => if n = 0 then .error (.retryError e) else attemptLoop f (i + 1) n

/-- `_call_nakdan_api` under its tenacity decorator: at most 3 attempts. -/
def call_with_retry (f : Nat → Except PyExc (List α)) : Except PyExc (List α) :=
  attemptLoop f 0 3

/-- `wait_exponential(multiplier=1, min=4, max=10)`: the backoff delay
(seconds) before the attempt following attempt number `n` (1-based):
`multiplier * 2^n` clamped into `[min, max]`. -/
def wait_exponential (n : Nat) : Nat := max 4 (min (2 ^ n) 10)

/-- A response item after the structural validation in
`_call_nakdan_api` (lines 270–283): either a dict that was checked to
contain `word` and `options` (with optional `BGU`; the `UD` field is
only rendered to a log and never touches the result), or a plain
string. -/
inductive RespItem where
  | obj (word : PyStr) (options : List Pv) (bgu : Option PyStr)
  | txt (s : PyStr)

/-! ### Vowelization (`get_nikud`) -/

/-- Token selection in `get_nikud`'s response loop (lines 387–400):
`options[0]` when the options list is truthy and its first element is a
string, the original `word` otherwise; plain-string items pass through
as `str(word_data)`. -/
def nikud_token : RespItem → PyStr
  | .obj word options _ =>
    match options with
    | .str s :: _ => s
    | _ => word
  | .txt s => s

/-- `get_nikud` (`src/utils/nakdan_api.py` lines 349–424).  `attempts`
abstracts one HTTP attempt of `_call_nakdan_api` (request, status
check, JSON parse and structural validation): it maps the attempt
number to that attempt's outcome. -/
def get_nikud (text : PyStr) (attempts : Nat → Except PyExc (List RespItem)) :
    NakdanResponse :=
  match check_text_requirements text MAX_TEXT_LENGTH with
  | some err => err
  | none =>
    match call_with_retry attempts with
    | .error e => handle_api_error e
    | .ok data =>
      let preserved := get_nikud_assemble text (data.map nikud_token)
      match mkNakdanResponse preserved none [] with
      | .ok r => r
      | .error m => handle_api_error (.valueError m)

/-! ### Morphological analysis (`analyze_text`) -/

/-- Python `str.split(sep)` with an explicit separator: empty parts are
kept and the result is never empty (`''.split(sep) == ['']`). -/
def splitOnSep (sep : Char) : PyStr → List PyStr
  | [] => [[]]
  | c :: rest =>
    match splitOnSep sep rest with
    | [] => [[c]]
    | p :: ps => if c = sep then [] :: p :: ps else (c :: p) :: ps

/-- The all-empty analysis dict initialized at the top of
`_process_word_parts` (lines 54–70). -/
def init_analysis (word : PyStr) : MorphData :=
  ⟨word, [], [], [], [], [], [], [], [], [], [], [], [], [], []⟩

/-- `_process_word_parts` (`src/utils/nakdan_api.py` lines 52–84,
identical to `process_word_parts` in `src/utils/nlp.py` lines 48–79):
split the token on the reserved separator `|` into prefix, stem
(`menukad`) and suffix. -/
def process_word_parts (word : PyStr) : MorphData :=
  let analysis := init_analysis word
  let word_parts := splitOnSep '|' word
  if word_parts.length > 1 then
    let analysis1 := if word_parts.headD [] ≠ [] then
      { analysis with pfx := word_parts.headD [] } else analysis
    let main_word := word_parts.getD 1 []
    if word_parts.length > 2 then
      { analysis1 with suffix := word_parts.getLastD [],
                       menukad := List.intercalate ['|'] ((word_parts.drop 1).dropLast) }
    else
      { analysis1 with menukad := main_word }
  else
    { analysis with menukad := word }

/-- `dict(zip(headers, values)).get(key, '')`: zip truncates to the
shorter list and a repeated key keeps its last value. -/
def bgu_get (headers values : List PyStr) (key : PyStr) : PyStr :=
  match ((headers.zip values).filter (fun p => p.1 == key)).getLast? with
  | some p => p.2
  | none => []

/-- `_process_bgu_field` (`src/utils/nakdan_api.py` lines 96–127): when
a `BGU` blob is present and its stripped text splits into at least two
newline-separated lines, zip the tab-separated header and value rows
and copy the recognized keys into the analysis (plus the `Suf_*` keys
when a suffix was detected); otherwise leave the analysis untouched. -/
def process_bgu_field (bgu : Option PyStr) (analysis : MorphData) : MorphData :=
  match bgu with
  | none => analysis
  | some b =>
    let bgu_lines := splitOnSep '\n' (pyStrip b)
    if bgu_lines.length ≥ 2 then
      let headers := splitOnSep '\t' (bgu_lines.getD 0 [])
      let values := splitOnSep '\t' (bgu_lines.getD 1 [])
      let a2 := { analysis with
        lem := bgu_get headers values "lex".toList,
        pos := bgu_get headers values "POS".toList,
        gender := bgu_get headers values "Gender".toList,
        number := bgu_get headers values "Number".toList,
        person := bgu_get headers values "Person".toList,
        tense := bgu_get headers values "Tense".toList,
        binyan := bgu_get headers values "Binyan".toList,
        status := bgu_get headers values "Status".toList }
      if a2.suffix ≠ [] then
        { a2 with
          suf_gender := bgu_get headers values "Suf_Gender".toList,
          suf_person := bgu_get headers values "Suf_Person".toList,
          suf_number := bgu_get headers values "Suf_Number".toList }
      else a2
    else analysis

/-- Vowelized-form selection in `_process_word_data` (lines 134–137):
`options[0][0]` when options is truthy, its first element a nonempty
list, and that list's first element a string; otherwise the original
word. -/
def analyze_vowelized (word : PyStr) (options : List Pv) : PyStr :=
  match options with
  | .lst (first :: _) :: _ =>
    match first with
    | .str s => s
    | _ => word
  | _ => word

/-- `_process_word_data` (lines 129–144).  `_process_ud_field` only
renders a dependency diagram to the log and never touches the
analysis, so it has no counterpart here. -/
def process_word_data (word : PyStr) (options : List Pv) (bgu : Option PyStr) :
    PyStr × MorphData :=
  (analyze_vowelized word options, process_bgu_field bgu (process_word_parts word))

/-- One iteration of the `analyze_text` response loop (lines 167–174):
dict items are processed, other items contribute `str(word_data)` and
an empty dict. -/
def analyze_item : RespItem → PyStr × WAEntry
  | .obj w opts bgu =>
    let r := process_word_data w opts bgu
    (r.1, .morph r.2)
  | .txt s => (s, .emptyDict)

/-- `analyze_text` (`src/utils/nakdan_api.py` lines 146–186). -/
def analyze_text (text : PyStr) (attempts : Nat → Except PyExc (List RespItem)) :
    NakdanResponse :=
  match check_text_requirements text MAX_TEXT_LENGTH with
  | some err => err
  | none =>
    match call_with_retry attempts with
    | .error e => handle_api_error e
    | .ok data =>
      let pairs := data.map analyze_item
      let vowelized_text := (pairs.map Prod.fst).flatten
      let preserved := nfcOrder vowelized_text
      match mkNakdanResponse preserved none (pairs.map Prod.snd) with
      | .ok r => r
      | .error m => handle_api_error (.valueError m)

/-! ### Lemmatization (`get_lemmas`) -/

/-- Python `len(...)` of a dynamic value (string length or list
length). -/
def pvLen : Pv → Nat
  | .str s => s.length
  | .lst xs => xs.length

/-- Python indexing `v[i]` of a dynamic value: indexing a string yields
a one-character string. -/
def pvGet : Pv → Nat → Option Pv
  | .str s, i => (s.getD i ' ') |> fun c => if i < s.length then some (.str [c]) else none
  | .lst xs, i => xs.getD i (.str []) |> fun x => if i < xs.length then some x else none

/-- Lemma extraction in `get_lemmas` (lines 310–324): descend
`options[0][1][0][1]` guarded by the length and `isinstance` checks of
the source; any guard failing leaves the original word. -/
def extract_lemma (word : PyStr) (options : List Pv) : Pv :=
  match options with
  | .lst fo :: _ =>
    if fo.length ≥ 2 then
      match pvGet (.lst fo) 1 with
      | some (.lst ms) =>
        if ms.length ≥ 1 then
          match pvGet (.lst ms) 0 with
          | some m0 =>
            if pvLen m0 > 1 then (pvGet m0 1).getD (.str word) else .str word
          | none => .str word
        else .str word
      | _ => .str word
    else .str word
  | _ => .str word

/-- One iteration of the `get_lemmas` response loop (lines 308–336). -/
def lemma_item : RespItem → Pv × WAEntry
  | .obj w opts _ =>
    let l := extract_lemma w opts
    (l, .lemmaEntry w l)
  | .txt s => (.str s, .emptyDict)

/-- `' '.join(...)` demands every element be a string; a non-string
raises `TypeError`. -/
def allStrs : List Pv → Option (List PyStr)
  | [] => some []
  | .str s :: rest => (allStrs rest).map (s :: ·)
  | .lst _ :: _ => none

/-- `get_lemmas` (`src/utils/nakdan_api.py` lines 286–347). -/
def get_lemmas (text : PyStr) (attempts : Nat → Except PyExc (List RespItem)) :
    NakdanResponse :=
  match check_text_requirements text MAX_TEXT_LENGTH with
  | some err => err
  | none =>
    match call_with_retry attempts with
    | .error e => handle_api_error e
    | .ok data =>
      let pairs := data.map lemma_item
      match allStrs (pairs.map Prod.fst) with
      | none => handle_api_error (.typeError "sequence item: expected str instance")
      | some strs =>
        let lemmatized_text := List.intercalate [' '] strs
        match mkNakdanResponse lemmatized_text none (pairs.map Prod.snd) with
        | .ok r => r
        | .error m => handle_api_error (.valueError m)

/-! ### Translation (`DictaTranslateAPI.translate`) -/

/-- One chunk dict inside a JSON-array WebSocket frame. -/
inductive WsItem where
  | itemOut (s : PyStr)
  | itemErr (msg : String)
  | itemOther

/-- One parsed WebSocket frame as discriminated by the read loop of
`DictaTranslateAPI.translate` (`src/utils/dicta_api.py` lines
91–149). `junk` is a frame that failed JSON parsing, flagged when its
raw text contains "Error during translation task". -/
inductive WsFrame where
  | ping
  | done
  | out (s : PyStr)
  | errFrame (msg : String)
  | arr (items : List WsItem)
  | junk (isTaskError : Bool)
  | otherDict

/-- The inner loop's failure modes: the server closed the socket before
a `done` frame (a `WebSocketException` on `recv`), or a `ValueError`
raised inside the loop. -/
inductive LoopErr where
  | closed
  | failed (msg : String)

/-- Array-frame handling (lines 127–138): stop at the first chunk with
an `error` key; collect each stripped nonempty `out` value. -/
def processArr : List WsItem → List PyStr → Except LoopErr (List PyStr)
  | [], acc => .ok acc
  | .itemErr m :: _, _ => .error (.failed ("API Error: " ++ m))
  | .itemOut s :: rest, acc =>
    let t := pyStrip s
    processArr rest (if t ≠ [] then acc ++ [t] else acc)
  | .itemOther :: rest, acc => processArr rest acc

/-- The WebSocket read loop (lines 88–158): answer pings, accumulate
stripped nonempty `out` fragments in arrival order, finish at
`{"stage":"done"}` by joining the fragments with a single space, and
fail with `ValueError("No translation received")` when no fragment
arrived. -/
def translateLoop : List WsFrame → List PyStr → Except LoopErr PyStr
  | [], _ => .error .closed
  | f :: rest, chunks =>
    match f with
    | .errFrame m => .error (.failed ("API Error: " ++ m))
    | .ping => translateLoop rest chunks
    | .done =>
      if chunks = [] then .error (.failed "No translation received")
      else .ok (List.intercalate [' '] chunks)
    | .out s =>
      let t := pyStrip s
      translateLoop rest (if t ≠ [] then chunks ++ [t] else chunks)
    | .arr items =>
      match processArr items chunks with
      | .ok chunks2 => translateLoop rest chunks2
      | .error e => .error e
    | .junk isTaskError =>
      if isTaskError then .error (.failed "API Error: raw frame") else translateLoop rest chunks
    | .otherDict => translateLoop rest chunks

/-- The translation client's error surface: a re-raised
`WebSocketException`, or a `ValueError` whose message the outer handler
(lines 161–166) wraps as `Translation failed: ...`. -/
inductive TranslateErr where
  | wsError
  | valueError (msg : String)

/-- `DictaTranslateAPI.translate` on a finished sequence of frames
received for one request. -/
def translate (frames : List WsFrame) : Except TranslateErr PyStr :=
  match translateLoop frames [] with
  | .ok r => .ok r
  | .error .closed => .error .wsError
  | .error (.failed m) => .error (.valueError ("Translation failed: " ++ m))

/-! ### Helper lemmas about the pipelines -/

lemma check_some_text_nil {t : PyStr} {m : Nat} {r : NakdanResponse}
    (h : check_text_requirements t m = some r) : r.text = [] := by
  rw [check_text_requirements] at h
  split_ifs at h
  all_goals injection h with h2
  all_goals rw [← h2]

lemma handle_api_error_text (e : PyExc) : (handle_api_error e).text = [] := by
  cases e <;> rfl

lemma call_with_retry_first_ok {α : Type} {f : Nat → Except PyExc (List α)}
    {data : List α} (h : f 0 = .ok data) : call_with_retry f = .ok data := by
  rw [call_with_retry, attemptLoop, h]

lemma assemble_nfc_fixed (t : PyStr) (toks : List PyStr) :
    nfcOrder (get_nikud_assemble t toks) = get_nikud_assemble t toks := by
  rw [get_nikud_assemble]
  exact nfcOrder_idem _

lemma attemptLoop_congr {α : Type} (f g : Nat → Except PyExc (List α)) :
    ∀ fuel i : Nat, (∀ j, i ≤ j → j < i + fuel → f j = g j) →
      attemptLoop f i fuel = attemptLoop g i fuel := by
  intro fuel
  induction fuel with
  | zero => intro i _; rfl
  | succ n ih =>
    intro i h
    simp only [attemptLoop]
    rw [h i (le_refl i) (by omega)]
    rcases hgi : g i with e | a
    · show (if n = 0 then Except.error e.retryError else attemptLoop f (i + 1) n) =
        (if n = 0 then Except.error e.retryError else attemptLoop g (i + 1) n)
      by_cases hn : n = 0
      · subst hn; rfl
      · simp only [if_neg hn]
        exact ih (i + 1) (fun j hj1 hj2 => h j (by omega) (by omega))
    · rfl

/-- The morphological feature fields copied from a BGU block. -/
def bguFieldsEmpty (m : MorphData) : Prop :=
  m.lem = [] ∧ m.pos = [] ∧ m.gender = [] ∧ m.number = [] ∧ m.person = [] ∧
  m.tense = [] ∧ m.binyan = [] ∧ m.status = [] ∧ m.suf_gender = [] ∧
  m.suf_person = [] ∧ m.suf_number = []

/-- A word-analysis entry whose BGU-derived morphological fields are
all empty. -/
def WAEntry.bguEmpty : WAEntry → Prop
  | .morph m => bguFieldsEmpty m
  | _ => False

/-- A record's BGU block is malformed in the sense of C4: missing, or
its stripped text does not split into at least a header line and a
value line. -/
def malformedBGU : Option PyStr → Prop
  | none => True
  | some b => (splitOnSep '\n' (pyStrip b)).length < 2

instance (b : Option PyStr) : Decidable (malformedBGU b) := by
  cases b with
  | none => exact isTrue trivial
  | some s => exact inferInstanceAs (Decidable (_ < 2))

lemma process_bgu_field_malformed {b : Option PyStr} (h : malformedBGU b)
    (a : MorphData) : process_bgu_field b a = a := by
  match b with
  | none => rfl
  | some s =>
    rw [process_bgu_field]
    rw [if_neg (by simp only [malformedBGU] at h; omega)]

lemma process_word_parts_bgu_empty (w : PyStr) : bguFieldsEmpty (process_word_parts w) := by
  rw [process_word_parts, bguFieldsEmpty]
  split_ifs <;> simp [init_analysis]

lemma getD_map {α β : Type} (f : α → β) (l : List α) (i : Nat) (d : β) (d2 : α)
    (hi : i < l.length) : (l.map f).getD i d = f (l.getD i d2) := by
  induction l generalizing i with
  | nil => simp at hi
  | cons a l ih =>
    cases i with
    | zero => rfl
    | succ i =>
      simp only [List.map_cons, List.getD_cons_succ]
      exact ih i (by simp at hi; omega)

/-! ### Claims -/

/-- C2: the claim states that the HTTP POST for vowelize, analyze and
lemmatize carries a JSON body whose `data` field equals the caller's
text unchanged.  The analyze branch does send the raw text, but the
vowelize (`nakdan`) branch sends `sanitize_input(text)`, and
`sanitize_input` deletes every character outside printable ASCII — so
for the valid Hebrew input "שלום" the vowelize request body's `data` is
the empty string, not the caller's text.  This contradicts the
repository's own test `test_nakdan_api_vowelize`, which expects
`get_nikud("שלום")` to succeed with vowelized text. -/
theorem C2_payload_data_divergence :
    (build_payload .nakdan "שלום".toList).data = [] ∧
    "שלום".toList ≠ [] ∧
    (build_payload .analyze "שלום".toList).data = "שלום".toList ∧
    (build_payload .nakdan "שלום".toList).data ≠ "שלום".toList := by
  refine ⟨by decide, by decide, rfl, by decide⟩

/-- C3 (counterexample): the claim states that a 4xx client error is
not retried at all.  In the code the tenacity decorator has no
`retry=` argument, so it retries on every exception: with a first
attempt failing on HTTP 404 and a second attempt succeeding, the call
returns the second attempt's success — the 4xx was retried. -/
theorem C3_counterexample :
    (fun i => if i = 0 then Except.error (PyExc.httpStatusError 404)
      else Except.ok ([] : List RespItem)) 0 = Except.error (PyExc.httpStatusError 404) ∧
    call_with_retry (fun i => if i = 0 then Except.error (PyExc.httpStatusError 404)
      else Except.ok ([] : List RespItem)) = Except.ok [] :=
  ⟨rfl, rfl⟩

/-- C3 (amended): the transport call makes at most 3 attempts with
exponential backoff clamped into [4, 10] seconds, retrying on EVERY
exception of an attempt (connection errors, timeouts, 5xx — but also
4xx and invalid-response errors): two failures followed by a success
return the success; three failures raise `tenacity.RetryError`
wrapping the last exception — surfaced by `_handle_api_error` as a
`Processing error` (not a `Connection error`) — and no 4th attempt is
made (the call's outcome depends only on attempts 0, 1 and 2). -/
theorem C3_retry_budget (f : Nat → Except PyExc (List RespItem))
    (r : List RespItem) (e0 e1 e2 : PyExc) (n : Nat) :
    (f 0 = .error e0 → f 1 = .error e1 → f 2 = .ok r → call_with_retry f = .ok r) ∧
    (f 0 = .error e0 → f 1 = .error e1 → f 2 = .error e2 →
      call_with_retry f = .error (.retryError e2) ∧
      (handle_api_error (.retryError e2)).error = some "Processing error: RetryError") ∧
    (∀ g : Nat → Except PyExc (List RespItem), (∀ i < 3, f i = g i) →
      call_with_retry f = call_with_retry g) ∧
    (4 ≤ wait_exponential n ∧ wait_exponential n ≤ 10 ∧
      wait_exponential n ≤ wait_exponential (n + 1)) := by
  refine ⟨?_, ?_, ?_, ?_⟩
  · intro h0 h1 h2
    rw [call_with_retry, attemptLoop, h0]
    simp only [if_neg (by omega : ¬(2 : Nat) = 0)]
    rw [attemptLoop, h1]
    simp only [if_neg (by omega : ¬(1 : Nat) = 0)]
    rw [attemptLoop, h2]
  · intro h0 h1 h2
    constructor
    · rw [call_with_retry, attemptLoop, h0]
      simp only [if_neg (by omega : ¬(2 : Nat) = 0)]
      rw [attemptLoop, h1]
      simp only [if_neg (by omega : ¬(1 : Nat) = 0)]
      rw [attemptLoop, h2]
      simp
    · rfl
  · intro g hg
    rw [call_with_retry, call_with_retry]
    exact attemptLoop_congr f g 3 0 (fun j _ hj2 => hg j (by omega))
  · refine ⟨?_, ?_, ?_⟩
    · exact Nat.le_max_left 4 _
    · have h1 : min (2 ^ n) 10 ≤ 10 := Nat.min_le_right _ _
      rw [wait_exponential]
      omega
    · rw [wait_exponential, wait_exponential]
      have hmono : min (2 ^ n) 10 ≤ min (2 ^ (n + 1)) 10 := by
        have : (2 : Nat) ^ n ≤ 2 ^ (n + 1) := Nat.pow_le_pow_right (by omega) (by omega)
        omega
      omega

/-- C3 (witness): two transient transport failures followed by a
success on the third attempt return the successful result, and the
first backoff delay is at least 4 seconds. -/
theorem C3_retry_budget_witness :
    call_with_retry (fun i => if i ≤ 1 then Except.error (PyExc.httpTransportError "timeout")
      else Except.ok ([] : List RespItem)) = Except.ok [] ∧
    4 ≤ wait_exponential 1 :=
  ⟨(C3_retry_budget (fun i => if i ≤ 1 then Except.error (PyExc.httpTransportError "timeout")
      else Except.ok ([] : List RespItem)) [] (.httpTransportError "timeout")
      (.httpTransportError "timeout") (.httpTransportError "timeout") 1).1 rfl rfl rfl,
   (C3_retry_budget (fun i => if i ≤ 1 then Except.error (PyExc.httpTransportError "timeout")
      else Except.ok ([] : List RespItem)) [] (.httpTransportError "timeout")
      (.httpTransportError "timeout") (.httpTransportError "timeout") 1).2.2.2.1⟩

/-- C5: the input validator with maxLength 500 fails with the
empty-input error exactly when the stripped text is empty; otherwise
fails with the too-long error when the text exceeds 500 code points
(`List.length` of the code-point list, not bytes); otherwise fails
with the wrong-script error when no character lies in U+0590–U+05FF;
and otherwise succeeds — the checks applied in that order, by a pure
function with no side effects. -/
theorem C5_validator_boundary (t : PyStr) :
    (pyStrip t = [] →
      check_text_requirements t 500 = some ⟨[], some errEmptyText, []⟩) ∧
    (pyStrip t ≠ [] → t.length > 500 →
      check_text_requirements t 500 = some ⟨[], some errTooLong, []⟩) ∧
    (pyStrip t ≠ [] → t.length ≤ 500 → is_hebrew t = false →
      check_text_requirements t 500 = some ⟨[], some errNonHebrew, []⟩) ∧
    (pyStrip t ≠ [] → t.length ≤ 500 → is_hebrew t = true →
      check_text_requirements t 500 = none) := by
  refine ⟨?_, ?_, ?_, ?_⟩
  · intro h
    rw [check_text_requirements, if_pos h]
  · intro h1 h2
    rw [check_text_requirements, if_neg h1, if_pos h2]
  · intro h1 h2 h3
    rw [check_text_requirements, if_neg h1, if_neg (by omega), if_pos (by simp [h3])]
  · intro h1 h2 h3
    rw [check_text_requirements, if_neg h1, if_neg (by omega), if_neg (by simp [h3])]

/-- C5 (witness): the four boundary cases of the claim — the empty
string, 501 Hebrew letters, the Hebrew-free "hello", and the valid
"שלום" — plus a 501-space input showing the empty check precedes the
length check. -/
theorem C5_validator_boundary_witness :
    check_text_requirements [] 500 = some ⟨[], some errEmptyText, []⟩ ∧
    check_text_requirements (List.replicate 501 'א') 500 = some ⟨[], some errTooLong, []⟩ ∧
    check_text_requirements "hello".toList 500 = some ⟨[], some errNonHebrew, []⟩ ∧
    check_text_requirements "שלום".toList 500 = none ∧
    check_text_requirements (List.replicate 501 ' ') 500 = some ⟨[], some errEmptyText, []⟩ :=
  ⟨(C5_validator_boundary []).1 (by decide),
   (C5_validator_boundary (List.replicate 501 'א')).2.1 (by decide) (by decide),
   (C5_validator_boundary "hello".toList).2.2.1 (by decide) (by decide) (by decide),
   (C5_validator_boundary "שלום".toList).2.2.2 (by decide) (by decide) (by decide),
   (C5_validator_boundary (List.replicate 501 ' ')).1 (by decide)⟩

/-- C6: in the vowelization response loop, a record whose option list
begins with a string candidate contributes that first candidate; a
record with an empty option list contributes its original token
unchanged; and the per-token selection is total and order-preserving,
so one token with no candidates never fails (or shrinks) the whole
batch. -/
theorem C6_first_candidate (word s : PyStr) (rest : List Pv) (b : Option PyStr)
    (data : List RespItem) :
    nikud_token (.obj word (.str s :: rest) b) = s ∧
    nikud_token (.obj word [] b) = word ∧
    (data.map nikud_token).length = data.length :=
  ⟨rfl, rfl, List.length_map data nikud_token⟩

/-- C9: the display text of every `NakdanResponse` produced by
`get_nikud` is a fixed point of the NFC model (`nfcOrder`): the
success path ends by normalizing the reassembled string and `nfcOrder`
is idempotent, while every error path carries the empty text, which is
trivially normalized. -/
theorem C9_output_nfc_normalized (text : PyStr)
    (attempts : Nat → Except PyExc (List RespItem)) :
    nfcOrder (get_nikud text attempts).text = (get_nikud text attempts).text := by
  rw [get_nikud]
  rcases hc : check_text_requirements text MAX_TEXT_LENGTH with _ | r
  · simp only []
    rcases hr : call_with_retry attempts with e | data
    · simp only []
      rw [handle_api_error_text]
      exact nfcOrder_nil
    · simp only []
      rcases hm : mkNakdanResponse (get_nikud_assemble text (data.map nikud_token)) none []
        with m | resp
      · simp only []
        rw [handle_api_error_text]
        exact nfcOrder_nil
      · simp only []
        rw [mkNakdanResponse] at hm
        split_ifs at hm
        injection hm with hm2
        rw [← hm2]
        exact assemble_nfc_fixed text (data.map nikud_token)
  · simp only []
    rw [check_some_text_nil hc]
    exact nfcOrder_nil

lemma translateLoop_outs : ∀ (ss : List PyStr) (acc : List PyStr),
    translateLoop (ss.map WsFrame.out ++ [WsFrame.done]) acc =
      (if acc ++ (ss.map pyStrip).filter (fun x => x ≠ []) = [] then
        Except.error (.failed "No translation received")
      else Except.ok (List.intercalate [' ']
        (acc ++ (ss.map pyStrip).filter (fun x => x ≠ [])))) := by
  intro ss
  induction ss with
  | nil =>
    intro acc
    simp only [List.map_nil, List.nil_append, List.filter_nil, List.append_nil]
    rw [translateLoop]
  | cons s ss ih =>
    intro acc
    have hunfold : translateLoop ((s :: ss).map WsFrame.out ++ [WsFrame.done]) acc =
        translateLoop (ss.map WsFrame.out ++ [WsFrame.done])
          (if pyStrip s ≠ [] then acc ++ [pyStrip s] else acc) := by
      simp only [List.map_cons, List.cons_append]
      rw [translateLoop]
    rw [hunfold]
    by_cases hs : pyStrip s = []
    · rw [if_neg (by simp [hs]), ih acc]
      have hfil : ((s :: ss).map pyStrip).filter (fun x => x ≠ []) =
          (ss.map pyStrip).filter (fun x => x ≠ []) := by
        simp only [List.map_cons, List.filter_cons, hs]
        simp
      rw [hfil]
    · rw [if_pos (by simp [hs]), ih (acc ++ [pyStrip s])]
      have hfil : ((s :: ss).map pyStrip).filter (fun x => x ≠ []) =
          pyStrip s :: (ss.map pyStrip).filter (fun x => x ≠ []) := by
        simp only [List.map_cons, List.filter_cons]
        rw [if_pos (by simp [hs])]
      rw [hfil, List.append_assoc, List.singleton_append]

/-- C7: the translation normalizer concatenates the received fragments
with a single-space separator in arrival order (each fragment is the
stripped `out` value, empty ones dropped), so the frames
`{"out":"Hello"}`, `{"out":"world"}`, `{"stage":"done"}` yield exactly
`"Hello world"`; and when zero fragments arrived before the terminal
frame it fails with the `ValueError` ("ProcessingFailure" kind)
`Translation failed: No translation received`. -/
theorem C7_translation_fragment_assembly :
    (∀ ss : List PyStr,
      translate (ss.map WsFrame.out ++ [WsFrame.done]) =
        (if (ss.map pyStrip).filter (fun x => x ≠ []) = [] then
          Except.error (.valueError "Translation failed: No translation received")
        else Except.ok (List.intercalate [' ']
          ((ss.map pyStrip).filter (fun x => x ≠ []))))) ∧
    translate [WsFrame.out "Hello".toList, WsFrame.out "world".toList, WsFrame.done] =
      Except.ok "Hello world".toList := by
  constructor
  · intro ss
    rw [translate, translateLoop_outs ss []]
    simp only [List.nil_append]
    by_cases h : (ss.map pyStrip).filter (fun x => x ≠ []) = []
    · rw [if_pos h, if_pos h]
      rfl
    · rw [if_neg h, if_neg h]
  · rfl

/-- C8: splitting a token on the reserved separator `|` yields: for a
1-part result no prefix and no suffix with the stem equal to the whole
token; for a 2-part result the first part as prefix (the code skips
the assignment when the first part is empty, which leaves the same
empty value) and the second part as stem, with no suffix; and for 3 or
more parts the first part as prefix, the last part as suffix, and the
stem equal to the middle parts rejoined with the separator. -/
theorem C8_word_part_split (word : PyStr) :
    ((splitOnSep '|' word).length = 1 →
      (process_word_parts word).pfx = [] ∧
      (process_word_parts word).suffix = [] ∧
      (process_word_parts word).menukad = word) ∧
    ((splitOnSep '|' word).length = 2 →
      (process_word_parts word).pfx = (splitOnSep '|' word).headD [] ∧
      (process_word_parts word).menukad = (splitOnSep '|' word).getD 1 [] ∧
      (process_word_parts word).suffix = []) ∧
    ((splitOnSep '|' word).length ≥ 3 →
      (process_word_parts word).pfx = (splitOnSep '|' word).headD [] ∧
      (process_word_parts word).suffix = (splitOnSep '|' word).getLastD [] ∧
      (process_word_parts word).menukad =
        List.intercalate ['|'] (((splitOnSep '|' word).drop 1).dropLast)) := by
  refine ⟨?_, ?_, ?_⟩
  · intro h1
    rw [process_word_parts]
    rw [if_neg (by omega)]
    exact ⟨rfl, rfl, rfl⟩
  · intro h2
    rw [process_word_parts, if_pos (by omega), if_neg (by omega)]
    by_cases hh : (splitOnSep '|' word).headD [] ≠ []
    · rw [if_pos hh]
      exact ⟨rfl, rfl, rfl⟩
    · rw [if_neg hh]
      push_neg at hh
      exact ⟨by rw [init_analysis, hh], rfl, rfl⟩
  · intro h3
    rw [process_word_parts, if_pos (by omega), if_pos (by omega)]
    by_cases hh : (splitOnSep '|' word).headD [] ≠ []
    · rw [if_pos hh]
      exact ⟨rfl, rfl, rfl⟩
    · rw [if_neg hh]
      push_neg at hh
      exact ⟨by rw [init_analysis, hh], rfl, rfl⟩

/-- C8 (witness): the three shapes at the concrete tokens `"ab"`,
`"ab|cd"` and `"a|b|c|d"` — the last stem being `"b|c"`, the middle
parts rejoined with the separator. -/
theorem C8_word_part_split_witness :
    ((process_word_parts "ab".toList).pfx = [] ∧
      (process_word_parts "ab".toList).suffix = [] ∧
      (process_word_parts "ab".toList).menukad = "ab".toList) ∧
    ((process_word_parts "ab|cd".toList).pfx = "ab".toList ∧
      (process_word_parts "ab|cd".toList).menukad = "cd".toList ∧
      (process_word_parts "ab|cd".toList).suffix = []) ∧
    ((process_word_parts "a|b|c|d".toList).pfx = "a".toList ∧
      (process_word_parts "a|b|c|d".toList).suffix = "d".toList ∧
      (process_word_parts "a|b|c|d".toList).menukad = "b|c".toList) := by
  refine ⟨?_, ?_, ?_⟩
  · have h := (C8_word_part_split "ab".toList).1 (by decide)
    refine ⟨h.1, h.2.1, h.2.2⟩
  · have h := (C8_word_part_split "ab|cd".toList).2.1 (by decide)
    exact ⟨by rw [h.1]; decide, by rw [h.2.1]; decide, h.2.2⟩
  · have h := (C8_word_part_split "a|b|c|d".toList).2.2 (by decide)
    exact ⟨by rw [h.1]; decide, by rw [h.2.1]; decide, by rw [h.2.2]; decide⟩

/-- C1: when the processed tokens correspond one-to-one to the words of
the original text (each nonempty and whitespace-free, as Hebrew word
tokens are), the vowelize reassembly of `get_nikud` preserves every
whitespace run of the input exactly — the output's whitespace runs, in
order and position (before the k-th token, and trailing), are
literally the input's (`wsGaps` equality); the output is precisely the
recorded whitespace spans re-emitted before the corresponding
processed tokens (`weaveAll` equality); and those recorded spans
together with the original tokens reconstruct the input exactly, so no
run is collapsed or altered. -/
theorem C1_whitespace_preservation (t : PyStr) (toks : List PyStr)
    (hlen : toks.length = (pySplit t).length)
    (htoks : ∀ w ∈ toks, w ≠ [] ∧ noSpace w) :
    wsGaps (get_nikud_assemble t toks) = wsGaps t ∧
    get_nikud_assemble t toks = weaveAll (wsGaps t) (toks.map nfcOrder) ∧
    weaveAll (wsGaps t) (pySplit t) = t :=
  have h := assemble_spec t toks hlen htoks
  ⟨h.2.1, h.1, weave_gaps_split t⟩

/-- C1 (witness): a text with leading, doubled interior (space and
tab) and trailing whitespace, reassembled with two vowelized tokens,
keeps its whitespace runs exactly. -/
theorem C1_whitespace_preservation_witness :
    (["אָב".toList, "גּ".toList] : List PyStr).length =
      (pySplit "  אב\t\tג ".toList).length ∧
    wsGaps (get_nikud_assemble "  אב\t\tג ".toList ["אָב".toList, "גּ".toList]) =
      wsGaps "  אב\t\tג ".toList ∧
    weaveAll (wsGaps "  אב\t\tג ".toList) (pySplit "  אב\t\tג ".toList) =
      "  אב\t\tג ".toList :=
  ⟨by decide,
   (C1_whitespace_preservation "  אב\t\tג ".toList ["אָב".toList, "גּ".toList]
     (by decide) (by decide)).1,
   (C1_whitespace_preservation "  אב\t\tג ".toList ["אָב".toList, "גּ".toList]
     (by decide) (by decide)).2.2⟩

lemma analyze_text_success (text : PyStr) (data : List RespItem)
    (hv : check_text_requirements text MAX_TEXT_LENGTH = none)
    (hlen : ((data.map analyze_item).map Prod.fst).flatten.length ≤ 500) :
    analyze_text text (fun _ => .ok data) =
      ⟨nfcOrder ((data.map analyze_item).map Prod.fst).flatten, none,
        (data.map analyze_item).map Prod.snd⟩ := by
  rw [analyze_text, hv]
  simp only []
  rw [call_with_retry_first_ok rfl]
  simp only []
  rw [mkNakdanResponse, if_neg (by rw [nfcOrder_length, MAX_TEXT_LENGTH]; omega)]

/-- C4 (counterexample): the claim as stated fails when the assembled
vowelized text exceeds `MAX_TEXT_LENGTH`: for a response of 2 records
of 300 characters each, exactly one of them (the first) missing its
BGU block, the pydantic length validator rejects the 600-character
display text, the `except` handler returns an error response, and the
word-analysis count drops to 0 < 2. -/
theorem C4_counterexample :
    (analyze_text "א".toList (fun _ => .ok
      [.obj (List.replicate 300 'א') [] none,
       .obj (List.replicate 300 'ב') [] (some "POS\nnoun".toList)])).word_analysis.length
      = 0 ∧
    ([RespItem.obj (List.replicate 300 'א') [] none,
      RespItem.obj (List.replicate 300 'ב') [] (some "POS\nnoun".toList)] :
        List RespItem).length = 2 ∧
    (analyze_text "א".toList (fun _ => .ok
      [.obj (List.replicate 300 'א') [] none,
       .obj (List.replicate 300 'ב') [] (some "POS\nnoun".toList)])).error ≠ none ∧
    malformedBGU (none : Option PyStr) ∧
    ¬ malformedBGU (some "POS\nnoun".toList) := by
  refine ⟨by decide, by decide, by decide, trivial, by decide⟩

/-- C4 (amended): for every raw analyze response of N dict records in
which exactly one record is malformed (missing its BGU block, or its
BGU block not splitting into a header line and a value line), PROVIDED
the assembled vowelized text fits within `MAX_TEXT_LENGTH` (otherwise
the response-length validator turns the whole result into an error
response with zero entries — see the counterexample), `analyze_text`
returns a result with exactly N word-analysis entries and no error:
the malformed record's entry has all BGU-derived morphological feature
fields empty, and every other entry carries exactly the feature values
extracted from its record. -/
theorem C4_graceful_degradation (text : PyStr)
    (recs : List (PyStr × List Pv × Option PyStr)) (i : Nat)
    (hv : check_text_requirements text MAX_TEXT_LENGTH = none)
    (hi : i < recs.length)
    (hbad : malformedBGU (recs.getD i ([], [], none)).2.2)
    (hgood : ∀ j < recs.length, j ≠ i → ¬ malformedBGU (recs.getD j ([], [], none)).2.2)
    (hlen : (((recs.map (fun x => RespItem.obj x.1 x.2.1 x.2.2)).map analyze_item).map
      Prod.fst).flatten.length ≤ 500) :
    (analyze_text text (fun _ => .ok (recs.map (fun x =>
        RespItem.obj x.1 x.2.1 x.2.2)))).error = none ∧
    (analyze_text text (fun _ => .ok (recs.map (fun x =>
        RespItem.obj x.1 x.2.1 x.2.2)))).word_analysis.length = recs.length ∧
    ((analyze_text text (fun _ => .ok (recs.map (fun x =>
        RespItem.obj x.1 x.2.1 x.2.2)))).word_analysis.getD i .emptyDict).bguEmpty ∧
    (∀ j < recs.length,
      (analyze_text text (fun _ => .ok (recs.map (fun x =>
        RespItem.obj x.1 x.2.1 x.2.2)))).word_analysis.getD j .emptyDict =
      .morph (process_bgu_field (recs.getD j ([], [], none)).2.2
        (process_word_parts (recs.getD j ([], [], none)).1))) := by
  rw [analyze_text_success text _ hv hlen]
  simp only []
  have hwa : ∀ j, j < recs.length →
      (((recs.map (fun x => RespItem.obj x.1 x.2.1 x.2.2)).map analyze_item).map
        Prod.snd).getD j .emptyDict =
      WAEntry.morph (process_bgu_field (recs.getD j ([], [], none)).2.2
        (process_word_parts (recs.getD j ([], [], none)).1)) := by
    intro j hj
    rw [List.map_map, List.map_map]
    rw [getD_map _ recs j _ ([], [], none) hj]
    rfl
  refine ⟨by trivial, by simp, ?_, hwa⟩
  rw [hwa i hi, WAEntry.bguEmpty]
  rw [process_bgu_field_malformed hbad]
  exact process_word_parts_bgu_empty _

/-- C4 (witness): a response of two small records, the first missing
its BGU block, the second carrying a well-formed one: two entries come
back, the first with empty morphological fields. -/
theorem C4_graceful_degradation_witness :
    (analyze_text "א".toList (fun _ => .ok
      ([("ab".toList, [], none), ("cd".toList, [], some "POS\tGender\nnoun\tm".toList)].map
        (fun x => RespItem.obj x.1 x.2.1 x.2.2)))).error = none ∧
    (analyze_text "א".toList (fun _ => .ok
      ([("ab".toList, [], none), ("cd".toList, [], some "POS\tGender\nnoun\tm".toList)].map
        (fun x => RespItem.obj x.1 x.2.1 x.2.2)))).word_analysis.length = 2 ∧
    ((analyze_text "א".toList (fun _ => .ok
      ([("ab".toList, [], none), ("cd".toList, [], some "POS\tGender\nnoun\tm".toList)].map
        (fun x => RespItem.obj x.1 x.2.1 x.2.2)))).word_analysis.getD 0 .emptyDict).bguEmpty := by
  have h := C4_graceful_degradation "א".toList
    [("ab".toList, [], none), ("cd".toList, [], some "POS\tGender\nnoun\tm".toList)] 0
    rfl (by decide) (by decide)
    (by intro j hj hne
        match j, hj with
        | 1, _ => decide)
    (by decide)
  exact ⟨h.1, h.2.1, h.2.2.1⟩

lemma get_nikud_text_le (text : PyStr) (f : Nat → Except PyExc (List RespItem)) :
    (get_nikud text f).text.length ≤ 500 := by
  rw [get_nikud]
  rcases hc : check_text_requirements text MAX_TEXT_LENGTH with _ | r
  · simp only []
    rcases hr : call_with_retry f with e | data
    · simp only []
      rw [handle_api_error_text]
      simp
    · simp only []
      rcases hm : mkNakdanResponse (get_nikud_assemble text (data.map nikud_token)) none []
        with m | resp
      · simp only []
        rw [handle_api_error_text]
        simp
      · simp only []
        rw [mkNakdanResponse] at hm
        split_ifs at hm with hlen
        injection hm with hm2
        rw [← hm2]
        show (get_nikud_assemble text (data.map nikud_token)).length ≤ 500
        rw [MAX_TEXT_LENGTH] at hlen
        omega
  · simp only []
    rw [check_some_text_nil hc]
    simp

lemma analyze_text_text_le (text : PyStr) (f : Nat → Except PyExc (List RespItem)) :
    (analyze_text text f).text.length ≤ 500 := by
  rw [analyze_text]
  rcases hc : check_text_requirements text MAX_TEXT_LENGTH with _ | r
  · simp only []
    rcases hr : call_with_retry f with e | data
    · simp only []
      rw [handle_api_error_text]
      simp
    · simp only []
      rcases hm : mkNakdanResponse (nfcOrder ((data.map analyze_item).map Prod.fst).flatten)
          none ((data.map analyze_item).map Prod.snd) with m | resp
      · simp only []
        rw [handle_api_error_text]
        simp
      · simp only []
        rw [mkNakdanResponse] at hm
        split_ifs at hm with hlen
        injection hm with hm2
        rw [← hm2]
        show (nfcOrder ((data.map analyze_item).map Prod.fst).flatten).length ≤ 500
        rw [MAX_TEXT_LENGTH] at hlen
        omega
  · simp only []
    rw [check_some_text_nil hc]
    simp

lemma get_lemmas_text_le (text : PyStr) (f : Nat → Except PyExc (List RespItem)) :
    (get_lemmas text f).text.length ≤ 500 := by
  rw [get_lemmas]
  rcases hc : check_text_requirements text MAX_TEXT_LENGTH with _ | r
  · simp only []
    rcases hr : call_with_retry f with e | data
    · simp only []
      rw [handle_api_error_text]
      simp
    · simp only []
      rcases ha : allStrs ((data.map lemma_item).map Prod.fst) with _ | strs
      · simp only []
        rw [handle_api_error_text]
        simp
      · simp only []
        rcases hm : mkNakdanResponse (List.intercalate [' '] strs) none
            ((data.map lemma_item).map Prod.snd) with m | resp
        · simp only []
          rw [handle_api_error_text]
          simp
        · simp only []
          rw [mkNakdanResponse] at hm
          split_ifs at hm with hlen
          injection hm with hm2
          rw [← hm2]
          show (List.intercalate [' '] strs).length ≤ 500
          rw [MAX_TEXT_LENGTH] at hlen
          omega
  · simp only []
    rw [check_some_text_nil hc]
    simp

/-- C10: every `NakdanResponse` the pipelines return — success or
error — carries a text of at most 500 code points: constructing one
with a longer text raises the pydantic validation error, so when a
validated input's processed output grows past 500 code points (e.g. by
added diacritics), `get_nikud` and `analyze_text` return an error
response with empty text (message kind `Processing error`) instead of
the processed result. -/
theorem C10_response_length_invariant (t : PyStr) (err : Option String)
    (wa : List WAEntry) (text : PyStr)
    (f g fl : Nat → Except PyExc (List RespItem)) (data data2 data3 : List RespItem)
    (strs : List PyStr) :
    (500 < t.length →
      mkNakdanResponse t err wa = .error "Text exceeds maximum length of 500 characters") ∧
    (get_nikud text f).text.length ≤ 500 ∧
    (analyze_text text g).text.length ≤ 500 ∧
    (get_lemmas text fl).text.length ≤ 500 ∧
    (check_text_requirements text MAX_TEXT_LENGTH = none →
      f 0 = .ok data →
      500 < (get_nikud_assemble text (data.map nikud_token)).length →
      (get_nikud text f).text = [] ∧
      (get_nikud text f).error =
        some "Processing error: Text exceeds maximum length of 500 characters") ∧
    (check_text_requirements text MAX_TEXT_LENGTH = none →
      g 0 = .ok data2 →
      500 < (((data2.map analyze_item).map Prod.fst).flatten).length →
      (analyze_text text g).text = [] ∧
      (analyze_text text g).error =
        some "Processing error: Text exceeds maximum length of 500 characters") ∧
    (check_text_requirements text MAX_TEXT_LENGTH = none →
      fl 0 = .ok data3 →
      allStrs ((data3.map lemma_item).map Prod.fst) = some strs →
      500 < (List.intercalate [' '] strs).length →
      (get_lemmas text fl).text = [] ∧
      (get_lemmas text fl).error =
        some "Processing error: Text exceeds maximum length of 500 characters") := by
  refine ⟨?_, get_nikud_text_le text f, analyze_text_text_le text g,
    get_lemmas_text_le text fl, ?_, ?_, ?_⟩
  · intro hlong
    rw [mkNakdanResponse, if_pos (by rw [MAX_TEXT_LENGTH]; omega)]
  · intro hv h0 hbig
    rw [get_nikud, hv]
    simp only []
    rw [call_with_retry_first_ok h0]
    simp only []
    rw [mkNakdanResponse, if_pos (by rw [MAX_TEXT_LENGTH]; omega)]
    exact ⟨rfl, rfl⟩
  · intro hv h0 hbig
    rw [analyze_text, hv]
    simp only []
    rw [call_with_retry_first_ok h0]
    simp only []
    rw [mkNakdanResponse, if_pos (by rw [nfcOrder_length, MAX_TEXT_LENGTH]; omega)]
    exact ⟨rfl, rfl⟩
  · intro hv h0 hstrs hbig
    rw [get_lemmas, hv]
    simp only []
    rw [call_with_retry_first_ok h0]
    simp only []
    rw [hstrs]
    simp only []
    rw [mkNakdanResponse, if_pos (by rw [MAX_TEXT_LENGTH]; omega)]
    exact ⟨rfl, rfl⟩

/-- C10 (witness): constructing a `NakdanResponse` with a 501-character
text is rejected; the valid one-letter input "א" whose single
vowelized candidate is 501 characters long makes `get_nikud` return
the error response with empty text; and the same input whose extracted
lemma is 501 characters long makes `get_lemmas` return the error
response with empty text. -/
theorem C10_response_length_invariant_witness :
    mkNakdanResponse (List.replicate 501 'א') none [] =
      .error "Text exceeds maximum length of 500 characters" ∧
    (get_nikud "א".toList (fun _ => .ok
      [.obj "א".toList [Pv.str (List.replicate 501 'א')] none])).text = [] ∧
    (get_nikud "א".toList (fun _ => .ok
      [.obj "א".toList [Pv.str (List.replicate 501 'א')] none])).error =
      some "Processing error: Text exceeds maximum length of 500 characters" ∧
    (get_lemmas "א".toList (fun _ => .ok
      [.obj "א".toList [Pv.lst [Pv.str "א".toList,
        Pv.lst [Pv.lst [Pv.str "x".toList, Pv.str (List.replicate 501 'ל')]]]] none])).text
      = [] ∧
    (get_lemmas "א".toList (fun _ => .ok
      [.obj "א".toList [Pv.lst [Pv.str "א".toList,
        Pv.lst [Pv.lst [Pv.str "x".toList, Pv.str (List.replicate 501 'ל')]]]] none])).error
      = some "Processing error: Text exceeds maximum length of 500 characters" := by
  have h := C10_response_length_invariant (List.replicate 501 'א') none []
    "א".toList
    (fun _ => .ok [.obj "א".toList [Pv.str (List.replicate 501 'א')] none])
    (fun _ => .ok [])
    (fun _ => .ok [.obj "א".toList [Pv.lst [Pv.str "א".toList,
      Pv.lst [Pv.lst [Pv.str "x".toList, Pv.str (List.replicate 501 'ל')]]]] none])
    [.obj "א".toList [Pv.str (List.replicate 501 'א')] none] []
    [.obj "א".toList [Pv.lst [Pv.str "א".toList,
      Pv.lst [Pv.lst [Pv.str "x".toList, Pv.str (List.replicate 501 'ל')]]]] none]
    [List.replicate 501 'ל']
  exact ⟨h.1 (by simp), (h.2.2.2.2.1 rfl rfl (by decide)).1,
    (h.2.2.2.2.1 rfl rfl (by decide)).2,
    (h.2.2.2.2.2.2 rfl rfl (by decide) (by decide)).1,
    (h.2.2.2.2.2.2 rfl rfl (by decide) (by decide)).2⟩

end AlephBot
